import Mathlib

/-!
# Exact fractions and polynomials of `math_programs`

A shallow embedding of `rational.h` (class `Rational`) and `polynomial.h`
(class template `Polynomial<T>`), followed by the properties proved about them.

Integers are exact (`Int`): the source's `NumType = int64_t` is read without
overflow.  Sizes, indices and degrees are exact as well; an `int` index that is
negative reads as out of range, as its conversion to `size_t` does.

The class `Rational` is embedded twice, because `reduce()` calls `abs` unqualified on
`NumType`.  The operators `reduce`, `ctor`, `add`, ... take `abs` as the exact absolute
value: they are the exact fraction field, the coefficient type of the polynomial code.
The operators `reduceChecked`, `ctorChecked`, `addChecked`, ... take `abs` as
`int abs(int)`, the function the call selects when no overload for the 64-bit type is
in scope: the argument is converted to `int` first.  They return `none` where the
integer layer has no defined result (a zero divisor, `abs` of the `int` minimum).  The
two agree on fields below `2^31` in absolute value.

Loops without a syntactic bound (the `while (true)` of `operator,` and the recursive
descent of the expression parser) take a `fuel` argument and return an `Option`;
the theorems show that enough fuel gives a result.  In the parser `none` also stands
for a read of `s[pos]` beyond the terminator of the string.
-/

/-- Polynomials with rational coefficients, the mathematical meaning of a
`Polynomial<Rational>`. -/
abbrev MathPrograms.RatPoly : Type := Polynomial ℚ

namespace MathPrograms

/-! ## `rational.h` -/

/-- The fields `NumType a, b` of class `Rational`: the fraction `a/b`. -/
structure Rational where
  a : Int
  b : Int
deriving DecidableEq, Repr

namespace Rational

/-- Accessor `numerator()`. -/
abbrev numerator (r : Rational) : Int := r.a

/-- Accessor `denominator()`. -/
abbrev denominator (r : Rational) : Int := r.b

/-- Private method `reduce()` with `abs` exact: both fields are divided (C++
truncating `/=`) by `std::gcd(abs(a), abs(b))`, the greatest common divisor of their
absolute values.  It agrees with `reduceChecked`, where `abs` converts to `int`, on
fields below `2^31` in absolute value. -/
def reduce (r : Rational) : Rational :=
  let cur_gcd : Int := ((Nat.gcd r.a.natAbs r.b.natAbs : Nat) : Int)
  ⟨r.a.tdiv cur_gcd, r.b.tdiv cur_gcd⟩

/-- Constructor `Rational(NumType numer = 0, NumType denom = 1)`. -/
def ctor (numer : Int) (denom : Int) : Rational :=
  if numer ≠ 0 then
    reduce (if denom < 0 then ⟨-numer, -denom⟩ else ⟨numer, denom⟩)
  else
    ⟨numer, 1⟩

/-- Unary `operator-`. -/
def neg (num : Rational) : Rational :=
  ctor (- num.numerator) num.denominator

/-- Binary `operator+`. -/
def add (fir sec : Rational) : Rational :=
  ctor (fir.numerator * sec.denominator + sec.numerator * fir.denominator)
    (fir.denominator * sec.denominator)

/-- Binary `operator-`: `fir + (- sec)`. -/
def sub (fir sec : Rational) : Rational :=
  add fir (neg sec)

/-- Binary `operator*`. -/
def mul (fir sec : Rational) : Rational :=
  ctor (fir.numerator * sec.numerator) (fir.denominator * sec.denominator)

/-- Binary `operator/`: `fir * Rational(sec.denominator(), sec.numerator())`. -/
def div (fir sec : Rational) : Rational :=
  mul fir (ctor sec.denominator sec.numerator)

instance : Zero Rational := ⟨ctor 0 1⟩
instance : One Rational := ⟨ctor 1 1⟩
instance : Inhabited Rational := ⟨ctor 0 1⟩
instance : Neg Rational := ⟨neg⟩
instance : Add Rational := ⟨add⟩
instance : Sub Rational := ⟨sub⟩
instance : Mul Rational := ⟨mul⟩
instance : Div Rational := ⟨div⟩

/-- The class invariant: positive denominator, numerator and denominator coprime. -/
def Valid (r : Rational) : Prop :=
  0 < r.b ∧ Nat.gcd r.a.natAbs r.b.natAbs = 1

instance (r : Rational) : Decidable (Valid r) := by
  unfold Valid; exact inferInstance

/-- The rational number a `Rational` stands for. -/
def toRat (r : Rational) : ℚ := (r.a : ℚ) / (r.b : ℚ)

/-- The reduced representation of a rational number. -/
def ofRat (q : ℚ) : Rational := ⟨q.num, (q.den : Int)⟩

/-- Value `z` is the unique reduced representation of the rational number `q`: it
satisfies the class invariant, it stands for `q`, and no other value does both. -/
def IsReducedRepr (z : Rational) (q : ℚ) : Prop :=
  Valid z ∧ toRat z = q ∧ ∀ w : Rational, Valid w → toRat w = q → w = z

end Rational

/-! ## `polynomial.h` -/

/-- Class template `Polynomial<T>`, given by its only member `std::vector<T> coef`
(index `i` holds the coefficient of `x^i`). -/
abbrev Polynomial (T : Type) : Type := List T

namespace Polynomial

variable {T : Type} [Zero T] [Add T] [Sub T] [Mul T] [Div T] [DecidableEq T]

/-- The loop `while (coef.size() > 1 && coef.back() == T(0)) coef.pop_back();`
run for at most `fuel` iterations. -/
def popZeros : Nat → List T → List T
  | 0, coef => coef
  | fuel + 1, coef =>
    if 1 < coef.length ∧ coef.getLast? = some 0 then popZeros fuel coef.dropLast else coef

/-- Private method `deleteNulls()`.  Each iteration of its loop removes one
element, so `coef.length` iterations always reach the loop exit. -/
def deleteNulls (coef : List T) : List T :=
  let coef := if coef.isEmpty then coef ++ [0] else coef
  popZeros coef.length coef

/-- Method `std::vector::resize(len, val)`. -/
def resize (coef : List T) (len : Nat) (val : T) : List T :=
  coef.take len ++ List.replicate (len - coef.length) val

/-- Private method `reduce()`.  The loop divides in place, so the divisor
`coef[coef.size() - 1]` is re-read from the current vector at every iteration. -/
def reduce (coef : List T) : List T :=
  let coef := deleteNulls coef
  if 0 < coef.length ∧ coef.getD (coef.length - 1) 0 ≠ 0 then
    (List.range coef.length).foldl
      (fun c i => c.set i (c.getD i 0 / c.getD (c.length - 1) 0)) coef
  else
    coef

/-- Constructor `Polynomial(const std::vector<T>& v)`. -/
def ofVector (v : List T) : Polynomial T :=
  deleteNulls v

/-- Constructor `Polynomial(T val = T())`. -/
def ofScalar (val : T) : Polynomial T :=
  [val]

/-- Method `operator[] (size_t ind)`: zero beyond the stored coefficients. -/
def get (coef : Polynomial T) (ind : Nat) : T :=
  if coef.length ≤ ind then 0 else coef.getD ind 0

/-- Method `operator[]` called with an `int` argument: a negative argument converts
to a `size_t` that is not below `coef.size()`. -/
def getInt (coef : Polynomial T) (ind : Int) : T :=
  if ind < 0 then 0 else get coef ind.toNat

/-- Method `operator()`: the value at `arg`.  The loop runs over `coef[1]`,
`coef[2]`, ... in order; `coef[0]` exists for every constructed polynomial. -/
def apply (coef : Polynomial T) (arg : T) : T :=
  (coef.tail.foldl (fun (st : T × T) c => (st.1 + st.2 * c, st.2 * arg))
    (coef.getD 0 0, arg)).1

/-- Method `Degree()`: `-1` for the zero polynomial. -/
def Degree (coef : Polynomial T) : Int :=
  if coef.length = 1 ∧ coef.getD 0 0 = 0 then -1 else (coef.length : Int) - 1

/-- Method `operator+= (const Polynomial&)`. -/
def addAssign (coef other : Polynomial T) : Polynomial T :=
  let len := max coef.length other.length
  let coef := resize coef len 0
  let coef := (List.range other.length).foldl
    (fun c i => c.set i (c.getD i 0 + other.getD i 0)) coef
  deleteNulls coef

/-- Method `operator-= (const Polynomial&)`. -/
def subAssign (coef other : Polynomial T) : Polynomial T :=
  let len := max coef.length other.length
  let coef := resize coef len 0
  let coef := (List.range other.length).foldl
    (fun c i => c.set i (c.getD i 0 - other.getD i 0)) coef
  deleteNulls coef

/-- Method `operator*= (const Polynomial&)`. -/
def mulAssign (coef other : Polynomial T) : Polynomial T :=
  let save := coef
  let coef := resize coef (save.length * other.length) 0
  let coef := (List.range coef.length).foldl
    (fun c i => c.set i
      ((List.range (i + 1)).foldl (fun acc j => acc + get save j * get other (i - j)) 0))
    coef
  deleteNulls coef

/-- Method `operator*= (const T&)`. -/
def scaleAssign (coef : Polynomial T) (other : T) : Polynomial T :=
  let coef := (List.range coef.length).foldl
    (fun c i => c.set i (c.getD i 0 * other)) coef
  deleteNulls coef

/-- Free `operator+ (Polynomial, Polynomial)`. -/
def add (fir sec : Polynomial T) : Polynomial T :=
  addAssign fir sec

/-- Free `operator- (Polynomial, Polynomial)`. -/
def sub (fir sec : Polynomial T) : Polynomial T :=
  subAssign fir sec

/-- Free `operator* (Polynomial, Polynomial)`. -/
def mul (fir sec : Polynomial T) : Polynomial T :=
  mulAssign fir sec

/-- Free `operator* (Polynomial, T)`: `fir * Polynomial(sec)`. -/
def mulScalar (fir : Polynomial T) (sec : T) : Polynomial T :=
  mul fir (ofScalar sec)

/-- Method `operator&`: the composition `f(g(x))`. -/
def compose (coef other : Polynomial T) : Polynomial T :=
  deleteNulls
    (coef.tail.foldl
      (fun (st : Polynomial T × Polynomial T) c =>
        (addAssign st.1 (mulScalar st.2 c), mulAssign st.2 other))
      (ofScalar (coef.getD 0 0), other)).1

/-- The loop of `operator/`, from `power = n - 1` down to `power = 0`; the state is
`(ans, cur, delt)`. -/
def divLoop (other : Polynomial T) :
    Nat → Polynomial T × Polynomial T × List T → Polynomial T × Polynomial T × List T
  | 0, st => st
  | power + 1, (ans, cur, delt) =>
    let delt := delt.set (delt.length - 1)
      (getInt cur (Degree other + (power : Int)) / getInt other (Degree other))
    let ans := addAssign ans delt
    let cur := subAssign cur (mul other delt)
    let delt := delt.dropLast
    divLoop other power (ans, cur, delt)

/-- Method `operator/`: the quotient of the long division. -/
def divide (coef other : Polynomial T) : Polynomial T :=
  let ans : Polynomial T := ofScalar 0
  if Degree coef < Degree other then
    ans
  else
    let cur := coef
    let power : Int := Degree cur - Degree other
    let delt : List T := resize (ofScalar 0) (power + 1).toNat 0
    deleteNulls (divLoop other (power + 1).toNat (ans, cur, delt)).1

/-- Method `operator%`: `*this - (*this / other) * other`. -/
def modulo (coef other : Polynomial T) : Polynomial T :=
  deleteNulls (sub coef (mul (divide coef other) other))

/-- The `while (true)` loop of `operator,` run for at most `fuel` iterations:
`none` when the loop has not reached a `break` by then. -/
def gcdLoop : Nat → Polynomial T → Polynomial T → Option (Polynomial T)
  | 0, _, _ => none
  | fuel + 1, a, b =>
    if Degree a = -1 then some b
    else if Degree b = -1 then some a
    else if Degree a ≥ Degree b then gcdLoop fuel (reduce (modulo a b)) b
    else gcdLoop fuel a (reduce (modulo b a))

/-- Method `operator,`: the greatest common divisor, its loop bounded by `fuel`. -/
def gcd (fuel : Nat) (coef other : Polynomial T) : Option (Polynomial T) :=
  let a := deleteNulls coef
  let b := deleteNulls other
  if a = ofScalar 0 ∧ b = ofScalar 0 then
    some (ofScalar 0)
  else
    (gcdLoop fuel a b).map (fun ans => reduce (deleteNulls ans))

/-- Canonical form: at least one coefficient, and the last one is zero only in the
zero polynomial `[0]`. -/
def Canon (coef : Polynomial T) : Prop :=
  coef ≠ [] ∧ (coef.getLast? = some 0 → coef = [0])

instance (coef : Polynomial T) : Decidable (Canon coef) := by
  unfold Canon; exact inferInstance

/-- A polynomial over the fraction field: canonical form, every coefficient
satisfying the invariant of `Rational`. -/
def WF (coef : Polynomial Rational) : Prop :=
  Canon coef ∧ ∀ c ∈ coef, Rational.Valid c

instance (coef : Polynomial Rational) : Decidable (WF coef) := by
  unfold WF; exact inferInstance

/-- The list `coef` holds the coefficients of the polynomial `p`, padded with zeros. -/
def Rep (coef : List ℚ) (p : RatPoly) : Prop :=
  ∀ k : Nat, p.coeff k = coef.getD k 0

/-- Multiplication on an exactly sized buffer: the loop of `operator*=` run on a working
buffer of `len` coefficients in place of `save.coef.size() * other.coef.size()`. -/
def mulAssignSized (len : Nat) (coef other : Polynomial T) : Polynomial T :=
  let save := coef
  let coef := resize coef len 0
  let coef := (List.range coef.length).foldl
    (fun c i => c.set i
      ((List.range (i + 1)).foldl (fun acc j => acc + get save j * get other (i - j)) 0))
    coef
  deleteNulls coef

/-- The polynomial `A` with every coefficient divided by its leading coefficient;
the zero polynomial is left as it is. -/
def monic (A : Polynomial T) : Polynomial T :=
  if A = [0] then A else A.map (fun c => c / A.getD (A.length - 1) 0)

end Polynomial

end MathPrograms

/-! ## `rational.h`: comparisons, `reduce()` with `int abs(int)`, the parser -/

namespace MathPrograms

namespace Rational

/-- Comparison `operator==`. -/
def eq (fir sec : Rational) : Bool :=
  fir.numerator == sec.numerator && fir.denominator == sec.denominator

/-- Comparison `operator!=`. -/
def ne (fir sec : Rational) : Bool :=
  !(eq fir sec)

/-- Comparison `operator<`: the sign of the numerator of `fir - sec`. -/
def lt (fir sec : Rational) : Bool :=
  decide ((fir - sec).numerator < 0)

/-- Comparison `operator>`: `sec < fir`. -/
def gt (fir sec : Rational) : Bool :=
  lt sec fir

/-- The conversion of a `NumType` value to `int`: its residue modulo `2^32` in the
range of `int`. -/
def wrap32 (x : Int) : Int :=
  (x + 2147483648) % 4294967296 - 2147483648

/-- The call `abs(x)` of `reduce()` as `int abs(int)`: the argument is converted to
`int`; the absolute value of the `int` minimum is not defined (`none`). -/
def absInt (x : Int) : Option Int :=
  if wrap32 x = -2147483648 then none else some ((wrap32 x).natAbs : Int)

/-- The machine division `x /= y` on `NumType`: a zero divisor is the division-by-zero
condition of the integer layer. -/
def checkedDiv (x y : Int) : Option Int :=
  if y = 0 then none else some (x.tdiv y)

/-- Private method `reduce()` with `abs` as `int abs(int)` and its two integer
divisions checked: `cur_gcd` is the `std::gcd` of the two `int` values. -/
def reduceChecked (r : Rational) : Option Rational :=
  match absInt r.a with
  | none => none
  | some x =>
    match absInt r.b with
    | none => none
    | some y =>
      let cur_gcd : Int := ((Nat.gcd x.natAbs y.natAbs : Nat) : Int)
      match checkedDiv r.a cur_gcd with
      | none => none
      | some a =>
        match checkedDiv r.b cur_gcd with
        | none => none
        | some b => some ⟨a, b⟩

/-- Constructor `Rational(NumType, NumType)` over `reduceChecked`. -/
def ctorChecked (numer : Int) (denom : Int) : Option Rational :=
  if numer ≠ 0 then
    reduceChecked (if denom < 0 then ⟨-numer, -denom⟩ else ⟨numer, denom⟩)
  else
    some ⟨numer, 1⟩

/-- Unary `operator-` over `ctorChecked`. -/
def negChecked (num : Rational) : Option Rational :=
  ctorChecked (- num.numerator) num.denominator

/-- Binary `operator+` over `ctorChecked`. -/
def addChecked (fir sec : Rational) : Option Rational :=
  ctorChecked (fir.numerator * sec.denominator + sec.numerator * fir.denominator)
    (fir.denominator * sec.denominator)

/-- Binary `operator-` over `ctorChecked`: `fir + (- sec)`. -/
def subChecked (fir sec : Rational) : Option Rational :=
  match negChecked sec with
  | none => none
  | some nsec => addChecked fir nsec

/-- Binary `operator*` over `ctorChecked`. -/
def mulChecked (fir sec : Rational) : Option Rational :=
  ctorChecked (fir.numerator * sec.numerator) (fir.denominator * sec.denominator)

/-- Binary `operator/` (and `operator/=`) over `ctorChecked`:
`fir * Rational(sec.denominator(), sec.numerator())`; `none` stands for a
division-by-zero condition. -/
def divChecked (fir sec : Rational) : Option Rational :=
  match ctorChecked sec.denominator sec.numerator with
  | none => none
  | some inv => mulChecked fir inv

/-- Comparison `operator<` over `subChecked`. -/
def ltChecked (fir sec : Rational) : Option Bool :=
  match subChecked fir sec with
  | none => none
  | some res => some (decide (res.numerator < 0))

/-- Comparison `operator>` over `subChecked`: `sec < fir`. -/
def gtChecked (fir sec : Rational) : Option Bool :=
  ltChecked sec fir

/-- Both fields lie strictly between `-2^31` and `2^31`, where the conversion to `int`
changes nothing. -/
def Small (r : Rational) : Prop :=
  -2147483648 < r.a ∧ r.a < 2147483648 ∧ -2147483648 < r.b ∧ r.b < 2147483648

instance (r : Rational) : Decidable (Small r) := by
  unfold Small; exact inferInstance

/-- The read `s[pos]` of a `std::string`: the character at `pos` below `s.size()`, the
terminator at `pos == s.size()`, and nothing (`none`) past the terminator. -/
def charAt (s : List Char) (pos : Nat) : Option Char :=
  if pos < s.length then some (s.getD pos (Char.ofNat 0))
  else if pos = s.length then some (Char.ofNat 0)
  else none

/-- The loop `while ('0' <= s[pos] && s[pos] <= '9')` of `getNum`, run for at most
`fuel` iterations; the state is `(num, pos)`. -/
def digitLoop : Nat → List Char → Int → Nat → Option (Int × Nat)
  | 0, _, _, _ => none
  | fuel + 1, s, num, pos =>
    match charAt s pos with
    | none => none
    | some c =>
      if '0' ≤ c ∧ c ≤ '9' then
        digitLoop fuel s (num * 10 + ((c.toNat : Int) - ('0'.toNat : Int))) (pos + 1)
      else
        some (num, pos)

/-- Method `getNum`: an optional `-` and a run of digits; the result is the value and
the new `pos`. -/
def getNum (fuel : Nat) (s : List Char) (pos : Nat) : Option (Rational × Nat) :=
  match charAt s pos with
  | none => none
  | some c =>
    let res := if c = '-' then ctor (-1) 1 else ctor 1 1
    let pos := if c = '-' then pos + 1 else pos
    match digitLoop fuel s 0 pos with
    | none => none
    | some (num, pos) => some (res * ctor num 1, pos)

mutual

/-- Method `getSum`: a `Product`, then the loop over `+` and `-`.  Every call and every
loop iteration uses one unit of `fuel`; `none` is a read past the terminator or the
end of the fuel. -/
def getSum : Nat → List Char → Nat → Option (Rational × Nat)
  | 0, _, _ => none
  | fuel + 1, s, pos =>
    match getProduct fuel s pos with
    | none => none
    | some (res, pos) => sumLoop fuel s res pos
termination_by structural fuel => fuel

/-- The loop `while (pos < s.size() && (s[pos] == '+' || s[pos] == '-'))` of `getSum`. -/
def sumLoop : Nat → List Char → Rational → Nat → Option (Rational × Nat)
  | 0, _, _, _ => none
  | fuel + 1, s, res, pos =>
    if pos < s.length ∧
        (s.getD pos (Char.ofNat 0) = '+' ∨ s.getD pos (Char.ofNat 0) = '-') then
      let oper := s.getD pos (Char.ofNat 0)
      match getProduct fuel s (pos + 1) with
      | none => none
      | some (other, pos) =>
        sumLoop fuel s (if oper = '+' then res + other else res - other) pos
    else
      some (res, pos)
termination_by structural fuel => fuel

/-- Method `getProduct`: a `SubExpr`, then the loop over `*` and `/`. -/
def getProduct : Nat → List Char → Nat → Option (Rational × Nat)
  | 0, _, _ => none
  | fuel + 1, s, pos =>
    match getSubExpr fuel s pos with
    | none => none
    | some (res, pos) => productLoop fuel s res pos
termination_by structural fuel => fuel

/-- The loop `while (pos < s.size() && (s[pos] == '*' || s[pos] == '/'))` of
`getProduct`. -/
def productLoop : Nat → List Char → Rational → Nat → Option (Rational × Nat)
  | 0, _, _, _ => none
  | fuel + 1, s, res, pos =>
    if pos < s.length ∧
        (s.getD pos (Char.ofNat 0) = '*' ∨ s.getD pos (Char.ofNat 0) = '/') then
      let oper := s.getD pos (Char.ofNat 0)
      match getSubExpr fuel s (pos + 1) with
      | none => none
      | some (other, pos) =>
        productLoop fuel s (if oper = '*' then res * other else res / other) pos
    else
      some (res, pos)
termination_by structural fuel => fuel

/-- Method `getSubExpr`: `(Sum)` or `Num`; after the inner `Sum` the position is
advanced by one without a read. -/
def getSubExpr : Nat → List Char → Nat → Option (Rational × Nat)
  | 0, _, _ => none
  | fuel + 1, s, pos =>
    match charAt s pos with
    | none => none
    | some c =>
      if c = '(' then
        match getSum fuel s (pos + 1) with
        | none => none
        | some (res, pos) => some (res, pos + 1)
      else
        getNum fuel s pos
termination_by structural fuel => fuel

end

/-- Method `getExpr`. -/
def getExpr (fuel : Nat) (s : List Char) (pos : Nat) : Option (Rational × Nat) :=
  getSum fuel s pos

/-- Constructor `Rational(const std::string& expr)`: the characters other than `' '`
are copied to `s`, and the fields are taken from `getExpr(s, ind)` with `ind = 0`. -/
def ctorString (fuel : Nat) (expr : List Char) : Option Rational :=
  let s := expr.filter (fun sym => sym ≠ ' ')
  match getExpr fuel s 0 with
  | none => none
  | some (res, _) => some ⟨res.numerator, res.denominator⟩

/-- The integer a run of decimal digits stands for. -/
def digitsValue (ds : List Char) : Int :=
  ds.foldl (fun num c => num * 10 + ((c.toNat : Int) - ('0'.toNat : Int))) 0

/-- A text of decimal digits only. -/
def AllDigits (ds : List Char) : Prop :=
  ∀ c ∈ ds, '0' ≤ c ∧ c ≤ '9'

instance (ds : List Char) : Decidable (AllDigits ds) := by
  unfold AllDigits; exact inferInstance

end Rational

namespace Polynomial

variable {T : Type} [Zero T] [Add T] [Sub T] [Mul T] [Div T] [DecidableEq T]

/-- The four coefficient operators of `Polynomial<T>` as functions that can fail. -/
structure CheckedOps (T : Type) where
  add : T → T → Option T
  sub : T → T → Option T
  mul : T → T → Option T
  div : T → T → Option T

/-- A `for` loop over the indices `is` whose body can fail: the first failure ends
the run. -/
def foldChecked {σ : Type} (body : σ → Nat → Option σ) : List Nat → σ → Option σ
  | [], st => some st
  | i :: is, st => (body st i).bind (foldChecked body is)

/-- Method `operator+= (const Polynomial&)` over fallible coefficient operators. -/
def addAssignChecked (ops : CheckedOps T) (coef other : Polynomial T) :
    Option (Polynomial T) :=
  let len := max coef.length other.length
  let coef := resize coef len 0
  (foldChecked
    (fun c i => (ops.add (c.getD i 0) (other.getD i 0)).map (fun v => c.set i v))
    (List.range other.length) coef).map deleteNulls

/-- Method `operator-= (const Polynomial&)` over fallible coefficient operators. -/
def subAssignChecked (ops : CheckedOps T) (coef other : Polynomial T) :
    Option (Polynomial T) :=
  let len := max coef.length other.length
  let coef := resize coef len 0
  (foldChecked
    (fun c i => (ops.sub (c.getD i 0) (other.getD i 0)).map (fun v => c.set i v))
    (List.range other.length) coef).map deleteNulls

/-- The inner loop of `operator*=` over fallible coefficient operators: `coef[i]`
starts at `T(0)` and receives `save[j] * other[i - j]` for `j = 0, ..., i`. -/
def mulCoefChecked (ops : CheckedOps T) (save other : Polynomial T) (i : Nat) : Option T :=
  foldChecked
    (fun acc j => (ops.mul (get save j) (get other (i - j))).bind (fun prod => ops.add acc prod))
    (List.range (i + 1)) 0

/-- Method `operator*= (const Polynomial&)` over fallible coefficient operators. -/
def mulAssignChecked (ops : CheckedOps T) (coef other : Polynomial T) :
    Option (Polynomial T) :=
  let save := coef
  let coef := resize coef (save.length * other.length) 0
  (foldChecked
    (fun c i => (mulCoefChecked ops save other i).map (fun v => c.set i v))
    (List.range coef.length) coef).map deleteNulls

/-- The loop of `operator/` over fallible coefficient operators, from `power = n - 1`
down to `power = 0`: `none` stands for a run in which a coefficient operation had no
defined result. -/
def divLoopChecked (ops : CheckedOps T) (other : Polynomial T) :
    Nat → Polynomial T × Polynomial T × List T →
      Option (Polynomial T × Polynomial T × List T)
  | 0, st => some st
  | power + 1, (ans, cur, delt) =>
    (ops.div (getInt cur (Degree other + (power : Int))) (getInt other (Degree other))).bind
      fun t =>
        (addAssignChecked ops ans (delt.set (delt.length - 1) t)).bind fun ans =>
          (mulAssignChecked ops other (delt.set (delt.length - 1) t)).bind fun prod =>
            (subAssignChecked ops cur prod).bind fun cur =>
              divLoopChecked ops other power
                (ans, cur, (delt.set (delt.length - 1) t).dropLast)

/-- Method `operator/` over fallible coefficient operators. -/
def divideChecked (ops : CheckedOps T) (coef other : Polynomial T) :
    Option (Polynomial T) :=
  let ans : Polynomial T := ofScalar 0
  if Degree coef < Degree other then
    some ans
  else
    let cur := coef
    let power : Int := Degree cur - Degree other
    let delt : List T := resize (ofScalar 0) (power + 1).toNat 0
    (divLoopChecked ops other (power + 1).toNat (ans, cur, delt)).map
      (fun st => deleteNulls st.1)

/-- Method `operator%` over fallible coefficient operators:
`*this - (*this / other) * other`. -/
def moduloChecked (ops : CheckedOps T) (coef other : Polynomial T) :
    Option (Polynomial T) :=
  (divideChecked ops coef other).bind fun quot =>
    (mulAssignChecked ops quot other).bind fun prod =>
      (subAssignChecked ops coef prod).map deleteNulls

/-- The coefficient operators of `Polynomial<Rational>` with `abs` as
`int abs(int)`. -/
def rationalOps : CheckedOps Rational :=
  ⟨Rational.addChecked, Rational.subChecked, Rational.mulChecked, Rational.divChecked⟩

end Polynomial

end MathPrograms

/-! ## Properties of `Rational` -/

namespace MathPrograms
namespace Rational

theorem valid_ofRat (q : ℚ) : Valid (ofRat q) := by
  refine ⟨?_, ?_⟩
  · simp [ofRat, q.den_pos]
  · simpa [ofRat] using q.reduced

theorem toRat_ofRat (q : ℚ) : toRat (ofRat q) = q := by
  simp [toRat, ofRat, Rat.num_div_den]

theorem ofRat_toRat (r : Rational) (h : Valid r) : ofRat (toRat r) = r := by
  obtain ⟨a, b⟩ := r
  obtain ⟨hb, hg⟩ := h
  simp only at hb hg
  have h1 := Rat.num_div_eq_of_coprime hb hg
  have h2 := Rat.den_div_eq_of_coprime hb hg
  simp only [ofRat, toRat, h1, h2]

theorem ctor_eq_ofRat (n d : Int) (hd : d ≠ 0) : ctor n d = ofRat ((n : ℚ) / (d : ℚ)) := by
  rw [← Rat.divInt_eq_div]
  unfold ctor ofRat
  by_cases hn : n = 0
  · subst hn; simp
  · simp only [ne_eq, hn, not_false_eq_true, if_true, Rat.num_mk, Rat.den_mk, hd, if_false]
    have hg : ((n.gcd d : Nat) : Int) ∣ n := Int.gcd_dvd_left
    have hg2 : ((n.gcd d : Nat) : Int) ∣ d := Int.gcd_dvd_right
    by_cases hneg : d < 0
    · simp only [hneg, if_true, reduce, Int.natAbs_neg]
      have e : Nat.gcd n.natAbs d.natAbs = n.gcd d := rfl
      rw [e, Int.tdiv_eq_ediv_of_dvd ((Int.dvd_neg).2 hg), Int.tdiv_eq_ediv_of_dvd ((Int.dvd_neg).2 hg2)]
      rw [Int.sign_eq_neg_one_of_neg hneg]
      congr 1
      · simp
      · rw [Int.natCast_div, Int.natCast_natAbs, abs_of_neg hneg]
    · have hpos : 0 < d := lt_of_le_of_ne (not_lt.1 hneg) (Ne.symm hd)
      simp only [hneg, if_false, reduce]
      have e : Nat.gcd n.natAbs d.natAbs = n.gcd d := rfl
      rw [e, Int.tdiv_eq_ediv_of_dvd hg, Int.tdiv_eq_ediv_of_dvd hg2]
      rw [Int.sign_eq_one_of_pos hpos]
      congr 1
      · simp
      · rw [Int.natCast_div, Int.natCast_natAbs, abs_of_pos hpos]

end Rational
end MathPrograms

namespace MathPrograms
namespace Rational

theorem ofRat_injective : Function.Injective ofRat := by
  intro p q h
  have := congrArg toRat h
  simpa [toRat_ofRat] using this

theorem valid_iff_exists_ofRat (r : Rational) : Valid r ↔ ∃ q : ℚ, r = ofRat q :=
  ⟨fun h => ⟨toRat r, (ofRat_toRat r h).symm⟩, fun ⟨q, hq⟩ => hq ▸ valid_ofRat q⟩

theorem zero_def : (0 : Rational) = ⟨0, 1⟩ := rfl

theorem one_def : (1 : Rational) = ⟨1, 1⟩ := rfl

theorem ofRat_zero : ofRat 0 = 0 := rfl

theorem ofRat_one : ofRat 1 = 1 := rfl

theorem ofRat_eq_zero_iff (q : ℚ) : ofRat q = 0 ↔ q = 0 := by
  rw [← ofRat_zero]
  exact ofRat_injective.eq_iff

theorem ofRat_neg (q : ℚ) : -(ofRat q) = ofRat (-q) := by
  show neg (ofRat q) = _
  unfold neg
  rw [ctor_eq_ofRat _ _ (by simp [ofRat, denominator])]
  congr 1
  simp only [ofRat, numerator, denominator]
  push_cast
  rw [neg_div, Rat.num_div_den]

theorem ofRat_add (p q : ℚ) : ofRat p + ofRat q = ofRat (p + q) := by
  show add (ofRat p) (ofRat q) = _
  unfold add
  rw [ctor_eq_ofRat _ _ (by simp [ofRat, denominator])]
  congr 1
  simp only [ofRat, numerator, denominator]
  push_cast
  have hp : (p.den : ℚ) ≠ 0 := by exact_mod_cast p.den_nz
  have hq : (q.den : ℚ) ≠ 0 := by exact_mod_cast q.den_nz
  calc ((p.num : ℚ) * q.den + q.num * p.den) / (p.den * q.den)
      = (p.num : ℚ) / p.den + (q.num : ℚ) / q.den := by field_simp
    _ = p + q := by rw [Rat.num_div_den, Rat.num_div_den]

theorem ofRat_sub (p q : ℚ) : ofRat p - ofRat q = ofRat (p - q) := by
  show add (ofRat p) (neg (ofRat q)) = _
  have h1 : neg (ofRat q) = ofRat (-q) := ofRat_neg q
  have h2 : add (ofRat p) (ofRat (-q)) = ofRat (p + -q) := ofRat_add p (-q)
  rw [h1, h2, sub_eq_add_neg]

theorem ofRat_mul (p q : ℚ) : ofRat p * ofRat q = ofRat (p * q) := by
  show mul (ofRat p) (ofRat q) = _
  unfold mul
  rw [ctor_eq_ofRat _ _ (by simp [ofRat, denominator])]
  congr 1
  simp only [ofRat, numerator, denominator]
  push_cast
  have hp : (p.den : ℚ) ≠ 0 := by exact_mod_cast p.den_nz
  have hq : (q.den : ℚ) ≠ 0 := by exact_mod_cast q.den_nz
  calc ((p.num : ℚ) * q.num) / (p.den * q.den)
      = ((p.num : ℚ) / p.den) * ((q.num : ℚ) / q.den) := by field_simp
    _ = p * q := by rw [Rat.num_div_den, Rat.num_div_den]

theorem ofRat_div (p q : ℚ) (hq : q ≠ 0) : ofRat p / ofRat q = ofRat (p / q) := by
  show mul (ofRat p) (ctor (ofRat q).denominator (ofRat q).numerator) = _
  have hnum : q.num ≠ 0 := Rat.num_ne_zero.2 hq
  rw [ctor_eq_ofRat _ _ (by simpa only [ofRat, numerator] using hnum)]
  have h2 := ofRat_mul p (((ofRat q).denominator : ℚ) / ((ofRat q).numerator : ℚ))
  rw [show mul (ofRat p) (ofRat (((ofRat q).denominator : ℚ) / ((ofRat q).numerator : ℚ)))
    = ofRat (p * (((ofRat q).denominator : ℚ) / ((ofRat q).numerator : ℚ))) from h2]
  congr 1
  simp only [ofRat, numerator, denominator]
  push_cast
  have hn : (q.num : ℚ) ≠ 0 := by exact_mod_cast hnum
  have hd : (q.den : ℚ) ≠ 0 := by exact_mod_cast q.den_nz
  calc p * ((q.den : ℚ) / q.num) = p / ((q.num : ℚ) / q.den) := by field_simp
    _ = p / q := by rw [Rat.num_div_den]

/-- Dividing zero by zero gives zero: the numerator `0 * 1` selects the zero branch
of the constructor. -/
theorem zero_div_zero : (0 : Rational) / 0 = 0 := by decide

end Rational
end MathPrograms

namespace MathPrograms
namespace Rational

theorem isReducedRepr_ofRat (q : ℚ) : IsReducedRepr (ofRat q) q := by
  refine ⟨valid_ofRat q, toRat_ofRat q, ?_⟩
  intro w hw hq
  rw [← hq, ofRat_toRat w hw]

/-- With `abs` exact: for integers `a`, `b` with `b ≠ 0` or `a = 0`, the value built by
`ctor a b` has a positive denominator that is coprime to the numerator. -/
theorem valid_ctor (a b : Int) (h : b ≠ 0 ∨ a = 0) :
    0 < (ctor a b).denominator ∧
      Nat.gcd (ctor a b).numerator.natAbs (ctor a b).denominator.natAbs = 1 := by
  rcases h with h | h
  · rw [ctor_eq_ofRat a b h]
    exact valid_ofRat _
  · subst h
    have e : ctor 0 b = ⟨0, 1⟩ := rfl
    rw [e]
    decide

/-- With `abs` exact: on values satisfying the invariant, `+`, `-`, `*` and (for a
nonzero divisor) `/` return the unique reduced representation of the exact sum,
difference, product and quotient of the two rational numbers. -/
theorem isReducedRepr_arith (x y : Rational) (hx : Valid x) (hy : Valid y) :
    IsReducedRepr (x + y) (toRat x + toRat y) ∧
    IsReducedRepr (x - y) (toRat x - toRat y) ∧
    IsReducedRepr (x * y) (toRat x * toRat y) ∧
    (y ≠ 0 → IsReducedRepr (x / y) (toRat x / toRat y)) := by
  obtain ⟨p, rfl⟩ := (valid_iff_exists_ofRat x).1 hx
  obtain ⟨q, rfl⟩ := (valid_iff_exists_ofRat y).1 hy
  simp only [toRat_ofRat]
  refine ⟨?_, ?_, ?_, ?_⟩
  · rw [ofRat_add]; exact isReducedRepr_ofRat _
  · rw [ofRat_sub]; exact isReducedRepr_ofRat _
  · rw [ofRat_mul]; exact isReducedRepr_ofRat _
  · intro hq
    rw [ofRat_div p q (fun h => hq ((ofRat_eq_zero_iff q).2 h))]
    exact isReducedRepr_ofRat _

end Rational
end MathPrograms

/-! ## Transfer: the code at `Rational` against the same code at `ℚ`

On reduced fractions every operator of `Rational` is the image, under `ofRat`, of the
operator of `ℚ`.  So the generic code of `Polynomial<T>` run on reduced fractions is
the image of the same code run on rational numbers. -/

namespace MathPrograms
namespace Polynomial

open Rational

theorem getD_map_ofRat (l : List ℚ) (k : Nat) :
    (l.map ofRat).getD k 0 = ofRat (l.getD k 0) := by
  rw [← ofRat_zero]
  exact List.getD_map (l := l) (d := 0) (n := k) ofRat

theorem getLast?_map_ofRat_eq_zero (l : List ℚ) :
    (l.map ofRat).getLast? = some 0 ↔ l.getLast? = some 0 := by
  rw [List.getLast?_map]
  cases l.getLast? with
  | none => simp
  | some x => simp [ofRat_eq_zero_iff]

theorem popZeros_map (n : Nat) (l : List ℚ) :
    popZeros n (l.map ofRat) = (popZeros n l).map ofRat := by
  induction n generalizing l with
  | zero => rfl
  | succ n ih =>
    simp only [popZeros, List.length_map, getLast?_map_ofRat_eq_zero]
    by_cases h : 1 < l.length ∧ l.getLast? = some 0
    · rw [if_pos h, if_pos h, ← List.map_dropLast, ih]
    · rw [if_neg h, if_neg h]

theorem deleteNulls_map (l : List ℚ) :
    deleteNulls (l.map ofRat) = (deleteNulls l).map ofRat := by
  unfold deleteNulls
  cases l with
  | nil => rfl
  | cons x xs =>
    simp only [List.map_cons, List.isEmpty_cons, Bool.false_eq_true, if_false]
    have := popZeros_map (x :: xs).length (x :: xs)
    simpa using this

theorem resize_map (l : List ℚ) (n : Nat) :
    resize (l.map ofRat) n 0 = (resize l n 0).map ofRat := by
  simp [resize, ofRat_zero]

theorem get_map (l : List ℚ) (k : Nat) : get (l.map ofRat) k = ofRat (get l k) := by
  unfold get
  rw [List.length_map, getD_map_ofRat]
  split <;> simp [ofRat_zero]

theorem getInt_map (l : List ℚ) (k : Int) : getInt (l.map ofRat) k = ofRat (getInt l k) := by
  unfold getInt
  split
  · exact ofRat_zero.symm
  · exact get_map l _

theorem Degree_map (l : List ℚ) : Degree (l.map ofRat) = Degree l := by
  unfold Degree
  simp only [List.length_map, getD_map_ofRat, ofRat_eq_zero_iff]

theorem addAssign_map (a b : List ℚ) :
    addAssign (a.map ofRat) (b.map ofRat) = (addAssign a b).map ofRat := by
  unfold addAssign
  simp only [List.length_map, resize_map]
  rw [List.foldl_hom (List.map ofRat), deleteNulls_map]
  intro c i
  rw [getD_map_ofRat, getD_map_ofRat, ofRat_add, List.map_set]

theorem subAssign_map (a b : List ℚ) :
    subAssign (a.map ofRat) (b.map ofRat) = (subAssign a b).map ofRat := by
  unfold subAssign
  simp only [List.length_map, resize_map]
  rw [List.foldl_hom (List.map ofRat), deleteNulls_map]
  intro c i
  rw [getD_map_ofRat, getD_map_ofRat, ofRat_sub, List.map_set]

theorem convSum_map (a b : List ℚ) (i : Nat) (is : List Nat) (acc : ℚ) :
    is.foldl (fun acc j => acc + get (a.map ofRat) j * get (b.map ofRat) (i - j)) (ofRat acc)
      = ofRat (is.foldl (fun acc j => acc + get a j * get b (i - j)) acc) := by
  apply List.foldl_hom ofRat
  intro x j
  rw [get_map, get_map, ofRat_mul, ofRat_add]

theorem mulAssign_map (a b : List ℚ) :
    mulAssign (a.map ofRat) (b.map ofRat) = (mulAssign a b).map ofRat := by
  unfold mulAssign
  simp only [List.length_map, resize_map]
  rw [List.foldl_hom (List.map ofRat), deleteNulls_map]
  intro c i
  rw [List.map_set, ← ofRat_zero, convSum_map]

theorem scaleAssign_map (a : List ℚ) (x : ℚ) :
    scaleAssign (a.map ofRat) (ofRat x) = (scaleAssign a x).map ofRat := by
  unfold scaleAssign
  simp only [List.length_map]
  rw [List.foldl_hom (List.map ofRat), deleteNulls_map]
  intro c i
  rw [getD_map_ofRat, ofRat_mul, List.map_set]

theorem add_map (a b : List ℚ) : add (a.map ofRat) (b.map ofRat) = (add a b).map ofRat :=
  addAssign_map a b

theorem sub_map (a b : List ℚ) : sub (a.map ofRat) (b.map ofRat) = (sub a b).map ofRat :=
  subAssign_map a b

theorem mul_map (a b : List ℚ) : mul (a.map ofRat) (b.map ofRat) = (mul a b).map ofRat :=
  mulAssign_map a b

theorem mulScalar_map (a : List ℚ) (x : ℚ) :
    mulScalar (a.map ofRat) (ofRat x) = (mulScalar a x).map ofRat :=
  mul_map a [x]

theorem apply_map (a : List ℚ) (x : ℚ) : apply (a.map ofRat) (ofRat x) = ofRat (apply a x) := by
  unfold apply
  rw [← List.map_tail, List.foldl_map, getD_map_ofRat]
  have h := List.foldl_hom (fun st : ℚ × ℚ => (ofRat st.1, ofRat st.2))
    (fun (st : ℚ × ℚ) c => (st.1 + st.2 * c, st.2 * x))
    (fun (st : Rational × Rational) c => (st.1 + st.2 * ofRat c, st.2 * ofRat x))
    a.tail (a.getD 0 0, x)
    (by intro st c; simp only [ofRat_mul, ofRat_add])
  exact congrArg Prod.fst h

theorem compose_map (a b : List ℚ) :
    compose (a.map ofRat) (b.map ofRat) = (compose a b).map ofRat := by
  unfold compose
  rw [← List.map_tail, List.foldl_map, getD_map_ofRat, ← deleteNulls_map]
  have h := List.foldl_hom
    (fun st : List ℚ × List ℚ => (st.1.map ofRat, st.2.map ofRat))
    (fun (st : List ℚ × List ℚ) c => (addAssign st.1 (mulScalar st.2 c), mulAssign st.2 b))
    (fun (st : List Rational × List Rational) c =>
      (addAssign st.1 (mulScalar st.2 (ofRat c)), mulAssign st.2 (b.map ofRat)))
    a.tail (ofScalar (a.getD 0 0), b)
    (by intro st c; simp only [mulScalar_map, addAssign_map, mulAssign_map])
  exact congrArg (fun st => deleteNulls st.1) h

end Polynomial
end MathPrograms

/-! ## Canonical form and the loops over indices -/

namespace MathPrograms
namespace Polynomial

section Generic

set_option linter.unusedSectionVars false

variable {T : Type} [Zero T] [DecidableEq T]

theorem getD_dropLast_of_getLast (l : List T) (h : l.getLast? = some 0) (k : Nat) :
    l.dropLast.getD k 0 = l.getD k 0 := by
  obtain ⟨ys, rfl⟩ := List.getLast?_eq_some_iff.1 h
  rw [List.dropLast_concat]
  by_cases hk : k < ys.length
  · rw [List.getD_append _ _ _ _ hk]
  · have hk := not_lt.1 hk
    rw [List.getD_eq_default _ _ hk, List.getD_append_right _ _ _ _ hk]
    cases k - ys.length <;> rfl

theorem popZeros_getD (n : Nat) (l : List T) (k : Nat) :
    (popZeros n l).getD k 0 = l.getD k 0 := by
  induction n generalizing l with
  | zero => rfl
  | succ n ih =>
    unfold popZeros
    split
    · next h => rw [ih, getD_dropLast_of_getLast l h.2]
    · rfl

theorem deleteNulls_getD (l : List T) (k : Nat) : (deleteNulls l).getD k 0 = l.getD k 0 := by
  unfold deleteNulls
  cases l with
  | nil =>
    simp only [List.isEmpty_nil, if_true, popZeros_getD]
    cases k <;> rfl
  | cons x xs => simp only [List.isEmpty_cons, Bool.false_eq_true, if_false, popZeros_getD]

theorem canon_popZeros (n : Nat) (l : List T) (hn : l.length ≤ n) (hl : l ≠ []) :
    Canon (popZeros n l) := by
  induction n generalizing l with
  | zero =>
    exact absurd (List.length_eq_zero.1 (Nat.le_zero.1 hn)) hl
  | succ n ih =>
    unfold popZeros
    split
    · next h =>
      apply ih
      · rw [List.length_dropLast]; omega
      · intro he
        have := congrArg List.length he
        rw [List.length_dropLast] at this
        simp at this
        omega
    · next h =>
      refine ⟨hl, fun hlast => ?_⟩
      have hlen : l.length = 1 := by
        have : 0 < l.length := List.length_pos.2 hl
        by_contra hne
        exact h ⟨by omega, hlast⟩
      obtain ⟨x, rfl⟩ := List.length_eq_one.1 hlen
      simpa using hlast

theorem canon_deleteNulls (l : List T) : Canon (deleteNulls l) := by
  unfold deleteNulls
  apply canon_popZeros _ _ (le_refl _)
  cases l <;> simp

theorem popZeros_of_canon (n : Nat) (l : List T) (h : Canon l) : popZeros n l = l := by
  cases n with
  | zero => rfl
  | succ n =>
    unfold popZeros
    rw [if_neg]
    rintro ⟨h1, h2⟩
    have := h.2 h2
    rw [this] at h1
    simp at h1

theorem deleteNulls_of_canon (l : List T) (h : Canon l) : deleteNulls l = l := by
  unfold deleteNulls
  have hne : l.isEmpty = false := by
    cases l with
    | nil => exact absurd rfl h.1
    | cons x xs => rfl
  simp only [hne, Bool.false_eq_true, if_false]
  exact popZeros_of_canon _ l h

theorem length_resize (c : List T) (len : Nat) (v : T) : (resize c len v).length = len := by
  simp only [resize, List.length_append, List.length_take, List.length_replicate]
  omega

theorem resize_getD (l : List T) (len k : Nat) :
    (resize l len 0).getD k 0 = if k < len then l.getD k 0 else 0 := by
  unfold resize
  simp only [List.getD_eq_getElem?_getD, List.getElem?_append, List.getElem?_take,
    List.length_take, List.getElem?_replicate]
  by_cases h1 : k < len
  · by_cases h2 : k < l.length
    · simp [h1, h2]
    · have h3 : l[k]? = none := List.getElem?_eq_none (not_lt.1 h2)
      have h4 : ¬ k < min len l.length := by omega
      simp only [h1, h3, h4, if_false, if_true]
      split <;> rfl
  · have h3 : ¬ k < min len l.length := by omega
    have h4 : ¬ k - min len l.length < len - l.length := by omega
    simp [h1, h3, h4]

theorem get_eq_getD (l : List T) (k : Nat) : get l k = l.getD k 0 := by
  unfold get
  split
  · next h => rw [List.getD_eq_default _ _ h]
  · rfl

/-- The loop `for (i = 0; i < n; ++i) coef[i] = g(i, coef[i]);` keeps the size. -/
theorem length_forSet (g : Nat → T → T) (is : List Nat) (c : List T) :
    (is.foldl (fun c i => c.set i (g i (c.getD i 0))) c).length = c.length := by
  induction is generalizing c with
  | nil => rfl
  | cons i is ih => rw [List.foldl_cons, ih, List.length_set]

theorem getD_set (l : List T) (i k : Nat) (v d : T) :
    (l.set i v).getD k d = if i = k ∧ i < l.length then v else l.getD k d := by
  simp only [List.getD_eq_getElem?_getD, List.getElem?_set]
  by_cases h1 : i = k
  · subst h1
    by_cases h2 : i < l.length
    · simp [h2]
    · simp [h2, List.getElem?_eq_none (not_lt.1 h2)]
  · simp [h1]

/-- The loop `for (i = 0; i < n; ++i) coef[i] = g(i, coef[i]);` element by element. -/
theorem getD_forSet (g : Nat → T → T) (n : Nat) (c : List T) (k : Nat) :
    ((List.range n).foldl (fun c i => c.set i (g i (c.getD i 0))) c).getD k 0
      = if k < n ∧ k < c.length then g k (c.getD k 0) else c.getD k 0 := by
  induction n with
  | zero => simp
  | succ n ih =>
    rw [List.range_succ, List.foldl_append, List.foldl_cons, List.foldl_nil]
    rw [getD_set, length_forSet]
    by_cases hkn : n = k
    · subst hkn
      by_cases hl : n < c.length
      · rw [if_pos ⟨rfl, hl⟩, if_pos ⟨by omega, hl⟩, ih, if_neg (by omega)]
      · rw [if_neg (fun h => hl h.2), if_neg (fun h => hl h.2), ih, if_neg (fun h => hl h.2)]
    · rw [if_neg (fun h => hkn h.1), ih]
      by_cases hk : k < n ∧ k < c.length
      · rw [if_pos hk, if_pos ⟨by omega, hk.2⟩]
      · rw [if_neg hk, if_neg (fun h => hk ⟨by omega, h.2⟩)]

end Generic

end Polynomial
end MathPrograms

/-! ## The code at `ℚ`: coefficient lists as polynomials -/

namespace MathPrograms
namespace Polynomial

theorem rep_nil : Rep [] 0 := by
  intro k
  simp

theorem rep_cons (x : ℚ) (xs : List ℚ) (p : RatPoly) (h : Rep xs p) :
    Rep (x :: xs) (Polynomial.C x + Polynomial.X * p) := by
  intro k
  cases k with
  | zero => simp
  | succ k =>
    rw [Polynomial.coeff_add, Polynomial.coeff_C_succ, Polynomial.coeff_X_mul, h k]
    simp

theorem exists_rep (l : List ℚ) : ∃ p : RatPoly, Rep l p := by
  induction l with
  | nil => exact ⟨0, rep_nil⟩
  | cons x xs ih =>
    obtain ⟨p, hp⟩ := ih
    exact ⟨_, rep_cons x xs p hp⟩

theorem rep_unique (l : List ℚ) (p q : RatPoly) (hp : Rep l p) (hq : Rep l q) : p = q := by
  apply Polynomial.ext
  intro k
  rw [hp k, hq k]

theorem rep_of_getD_eq (a b : List ℚ) (p : RatPoly) (h : ∀ k, a.getD k 0 = b.getD k 0)
    (hb : Rep b p) : Rep a p := by
  intro k
  rw [hb k, h k]

theorem rep_deleteNulls (l : List ℚ) (p : RatPoly) (h : Rep l p) : Rep (deleteNulls l) p :=
  rep_of_getD_eq _ _ p (deleteNulls_getD l) h

theorem rep_singleton (x : ℚ) : Rep [x] (Polynomial.C x) := by
  have := rep_cons x [] 0 rep_nil
  simpa using this

theorem rep_coeff_eq_zero (l : List ℚ) (p : RatPoly) (h : Rep l p) (k : Nat)
    (hk : l.length ≤ k) : p.coeff k = 0 := by
  rw [h k, List.getD_eq_default _ _ hk]

theorem addAssign_getD (a b : List ℚ) (k : Nat) :
    (addAssign a b).getD k 0 = a.getD k 0 + b.getD k 0 := by
  unfold addAssign
  simp only
  rw [deleteNulls_getD, getD_forSet (fun i x => x + b.getD i 0), resize_getD, length_resize]
  by_cases hb : k < b.length
  · rw [if_pos ⟨hb, by omega⟩, if_pos (by omega)]
  · rw [if_neg (fun h => hb h.1), List.getD_eq_default b _ (not_lt.1 hb), add_zero]
    split
    · rfl
    · next h => rw [List.getD_eq_default a _ (by omega)]

theorem subAssign_getD (a b : List ℚ) (k : Nat) :
    (subAssign a b).getD k 0 = a.getD k 0 - b.getD k 0 := by
  unfold subAssign
  simp only
  rw [deleteNulls_getD, getD_forSet (fun i x => x - b.getD i 0), resize_getD, length_resize]
  by_cases hb : k < b.length
  · rw [if_pos ⟨hb, by omega⟩, if_pos (by omega)]
  · rw [if_neg (fun h => hb h.1), List.getD_eq_default b _ (not_lt.1 hb), sub_zero]
    split
    · rfl
    · next h => rw [List.getD_eq_default a _ (by omega)]

theorem rep_addAssign (a b : List ℚ) (p q : RatPoly) (ha : Rep a p) (hb : Rep b q) :
    Rep (addAssign a b) (p + q) := by
  intro k
  rw [Polynomial.coeff_add, ha k, hb k, addAssign_getD]

theorem rep_subAssign (a b : List ℚ) (p q : RatPoly) (ha : Rep a p) (hb : Rep b q) :
    Rep (subAssign a b) (p - q) := by
  intro k
  rw [Polynomial.coeff_sub, ha k, hb k, subAssign_getD]

/-- The inner loop `for (j = 0; j <= i; ++j) coef[i] += ...` as a finite sum. -/
theorem foldl_add_eq_sum (F : Nat → ℚ) (n : Nat) :
    (List.range n).foldl (fun acc j => acc + F j) 0 = ∑ j in Finset.range n, F j := by
  induction n with
  | zero => simp
  | succ n ih =>
    rw [List.range_succ, List.foldl_append, List.foldl_cons, List.foldl_nil, ih,
      Finset.sum_range_succ]

theorem mulAssign_getD (a b : List ℚ) (k : Nat) :
    (mulAssign a b).getD k 0
      = if k < a.length * b.length then
          ∑ j in Finset.range (k + 1), a.getD j 0 * b.getD (k - j) 0
        else 0 := by
  unfold mulAssign
  simp only
  rw [deleteNulls_getD,
    getD_forSet (fun i _ =>
      (List.range (i + 1)).foldl (fun acc j => acc + get a j * get b (i - j)) 0),
    length_resize]
  by_cases hk : k < a.length * b.length
  · rw [if_pos ⟨hk, hk⟩, if_pos hk, foldl_add_eq_sum]
    simp only [get_eq_getD]
  · rw [if_neg (fun h => hk h.1), if_neg hk, resize_getD, if_neg hk]

theorem rep_mulAssign (a b : List ℚ) (p q : RatPoly) (ha : Rep a p) (hb : Rep b q) :
    Rep (mulAssign a b) (p * q) := by
  intro k
  rw [mulAssign_getD, Polynomial.coeff_mul,
    Finset.Nat.sum_antidiagonal_eq_sum_range_succ_mk]
  split
  · next hk =>
    apply Finset.sum_congr rfl
    intro j _
    rw [ha j, hb (k - j)]
  · next hk =>
    apply Finset.sum_eq_zero
    intro j hj
    have hj : j ≤ k := Nat.lt_succ_iff.1 (Finset.mem_range.1 hj)
    by_cases h1 : a.length ≤ j
    · simp only [rep_coeff_eq_zero a p ha j h1, zero_mul]
    · by_cases h2 : b.length ≤ k - j
      · rw [rep_coeff_eq_zero b q hb (k - j) h2, mul_zero]
      · exfalso
        apply hk
        have h3 : 1 ≤ a.length := by omega
        have h4 : 1 ≤ b.length := by omega
        have h5 : a.length + b.length ≤ a.length * b.length + 1 := by nlinarith
        omega

theorem rep_add (a b : List ℚ) (p q : RatPoly) (ha : Rep a p) (hb : Rep b q) :
    Rep (add a b) (p + q) := rep_addAssign a b p q ha hb

theorem rep_sub (a b : List ℚ) (p q : RatPoly) (ha : Rep a p) (hb : Rep b q) :
    Rep (sub a b) (p - q) := rep_subAssign a b p q ha hb

theorem rep_mul (a b : List ℚ) (p q : RatPoly) (ha : Rep a p) (hb : Rep b q) :
    Rep (mul a b) (p * q) := rep_mulAssign a b p q ha hb

theorem rep_mulScalar (a : List ℚ) (x : ℚ) (p : RatPoly) (ha : Rep a p) :
    Rep (mulScalar a x) (p * Polynomial.C x) := rep_mul a [x] p _ ha (rep_singleton x)

end Polynomial
end MathPrograms

namespace MathPrograms
namespace Polynomial

theorem canon_last_ne_zero {T : Type} [Zero T] (l : List T) (h : Canon l) (hz : l ≠ [0]) :
    l.getD (l.length - 1) 0 ≠ 0 := by
  intro h0
  apply hz
  apply h.2
  rw [List.getLast?_eq_getElem?]
  have hlen : l.length - 1 < l.length := by
    have := List.length_pos.2 h.1
    omega
  rw [List.getD_eq_getElem _ _ hlen] at h0
  rw [List.getElem?_eq_getElem hlen, h0]

theorem canon_eq_zero_of_rep (a : List ℚ) (h : Canon a) (hr : Rep a 0) : a = [0] := by
  by_contra hz
  apply canon_last_ne_zero a h hz
  rw [← hr]
  simp

theorem rep_zero : Rep [0] 0 := by
  have := rep_singleton 0
  simpa using this

theorem canon_length (a : List ℚ) (p : RatPoly) (h : Canon a) (hr : Rep a p) (hp : p ≠ 0) :
    a.length = p.natDegree + 1 := by
  have hz : a ≠ [0] := by
    rintro rfl
    exact hp (rep_unique _ _ _ hr rep_zero)
  have hlast := canon_last_ne_zero a h hz
  rw [← hr] at hlast
  have h1 : a.length - 1 ≤ p.natDegree := Polynomial.le_natDegree_of_ne_zero hlast
  have h2 : p.natDegree < a.length := by
    by_contra hlt
    have := rep_coeff_eq_zero a p hr p.natDegree (not_lt.1 hlt)
    rw [Polynomial.coeff_natDegree] at this
    exact hp (Polynomial.leadingCoeff_eq_zero.1 this)
  omega

theorem canon_ext (a b : List ℚ) (p : RatPoly) (ha : Canon a) (hb : Canon b)
    (hra : Rep a p) (hrb : Rep b p) : a = b := by
  by_cases hp : p = 0
  · subst hp
    rw [canon_eq_zero_of_rep a ha hra, canon_eq_zero_of_rep b hb hrb]
  · have hla := canon_length a p ha hra hp
    have hlb := canon_length b p hb hrb hp
    apply List.ext_getElem (by omega)
    intro k h1 h2
    have e1 := hra k
    have e2 := hrb k
    rw [List.getD_eq_getElem _ _ h1] at e1
    rw [List.getD_eq_getElem _ _ h2] at e2
    rw [← e1, ← e2]

theorem Degree_eq (a : List ℚ) (p : RatPoly) (h : Canon a) (hr : Rep a p) :
    Degree a = if p = 0 then -1 else (p.natDegree : Int) := by
  by_cases hp : p = 0
  · subst hp
    rw [canon_eq_zero_of_rep a h hr, if_pos rfl]
    rfl
  · rw [if_neg hp]
    have hl := canon_length a p h hr hp
    unfold Degree
    rw [if_neg]
    · rw [hl]; push_cast; ring
    · rintro ⟨h1, h2⟩
      obtain ⟨x, rfl⟩ := List.length_eq_one.1 h1
      simp only [List.getD_cons_zero] at h2
      subst h2
      exact hp (rep_unique _ _ _ hr rep_zero)

theorem Degree_zero_iff (a : List ℚ) (h : Canon a) : Degree a = -1 ↔ a = [0] := by
  constructor
  · intro hd
    obtain ⟨p, hp⟩ := exists_rep a
    rw [Degree_eq a p h hp] at hd
    by_cases hz : p = 0
    · subst hz
      exact canon_eq_zero_of_rep a h hp
    · rw [if_neg hz] at hd
      omega
  · rintro rfl
    rfl

theorem applyLoop_eq_sum (x : ℚ) (l : List ℚ) (ans cur : ℚ) :
    (l.foldl (fun (st : ℚ × ℚ) c => (st.1 + st.2 * c, st.2 * x)) (ans, cur)).1
      = ans + cur * ∑ i in Finset.range l.length, l.getD i 0 * x ^ i := by
  induction l generalizing ans cur with
  | nil => simp
  | cons c cs ih =>
    rw [List.foldl_cons, ih, List.length_cons, Finset.sum_range_succ']
    simp only [List.getD_cons_succ, List.getD_cons_zero, pow_zero, mul_one, pow_succ]
    rw [mul_add, mul_assoc, Finset.mul_sum, Finset.mul_sum, add_assoc, add_comm (cur * c)]
    congr 2
    rw [Finset.mul_sum]
    apply Finset.sum_congr rfl
    intro i _
    ring

theorem apply_eq_sum (a : List ℚ) (x : ℚ) :
    apply a x = ∑ i in Finset.range a.length, a.getD i 0 * x ^ i := by
  unfold apply
  cases a with
  | nil => simp
  | cons c cs =>
    rw [List.tail_cons, applyLoop_eq_sum, List.length_cons, Finset.sum_range_succ']
    simp only [List.getD_cons_succ, List.getD_cons_zero, pow_zero, mul_one, pow_succ]
    rw [Finset.mul_sum, add_comm]
    congr 1
    apply Finset.sum_congr rfl
    intro i _
    ring

theorem apply_eq_eval (a : List ℚ) (p : RatPoly) (x : ℚ) (h : Rep a p) :
    apply a x = p.eval x := by
  rw [apply_eq_sum]
  by_cases ha : a.length = 0
  · rw [List.length_eq_zero.1 ha] at h ⊢
    rw [rep_unique _ _ _ h rep_nil]
    simp
  · have hdeg : p.natDegree < a.length := by
      by_cases hp : p = 0
      · subst hp; simp; omega
      · by_contra hlt
        have := rep_coeff_eq_zero a p h p.natDegree (not_lt.1 hlt)
        rw [Polynomial.coeff_natDegree] at this
        exact hp (Polynomial.leadingCoeff_eq_zero.1 this)
    rw [Polynomial.eval_eq_sum_range' hdeg]
    apply Finset.sum_congr rfl
    intro i _
    rw [h i]

theorem rep_composeLoop (b : List ℚ) (q : RatPoly) (hb : Rep b q) (l : List ℚ) :
    ∀ (ans cur : List ℚ) (P Cu L : RatPoly), Rep ans P → Rep cur Cu → Rep l L →
      Rep (l.foldl (fun (st : List ℚ × List ℚ) c =>
          (addAssign st.1 (mulScalar st.2 c), mulAssign st.2 b)) (ans, cur)).1
        (P + Cu * L.comp q) := by
  induction l with
  | nil =>
    intro ans cur P Cu L hP _ hL
    rw [rep_unique _ _ _ hL rep_nil]
    simpa using hP
  | cons c cs ih =>
    intro ans cur P Cu L hP hC hL
    obtain ⟨L', hL'⟩ := exists_rep cs
    rw [rep_unique _ _ _ hL (rep_cons c cs L' hL'), List.foldl_cons]
    have := ih (addAssign ans (mulScalar cur c)) (mulAssign cur b) _ _ L'
      (rep_addAssign _ _ _ _ hP (rep_mulScalar cur c Cu hC)) (rep_mulAssign _ _ _ _ hC hb) hL'
    have e : P + Cu * Polynomial.C c + Cu * q * L'.comp q
        = P + Cu * (Polynomial.C c + Polynomial.X * L').comp q := by
      simp only [Polynomial.add_comp, Polynomial.C_comp, Polynomial.mul_comp,
        Polynomial.X_comp]
      ring
    rw [← e]
    exact this

theorem rep_compose (a b : List ℚ) (p q : RatPoly) (ha : Rep a p) (hb : Rep b q) :
    Rep (compose a b) (p.comp q) := by
  unfold compose
  apply rep_deleteNulls
  cases a with
  | nil =>
    rw [rep_unique _ _ _ ha rep_nil]
    simpa using rep_zero
  | cons c cs =>
    obtain ⟨L', hL'⟩ := exists_rep cs
    rw [rep_unique _ _ _ ha (rep_cons c cs L' hL'), List.tail_cons]
    have := rep_composeLoop b q hb cs (ofScalar c) b _ _ L' (rep_singleton c) hb hL'
    simp only [Polynomial.add_comp, Polynomial.C_comp, Polynomial.mul_comp,
      Polynomial.X_comp]
    exact this

end Polynomial
end MathPrograms

/-! ## Polynomials over the fraction field: multiplication, evaluation, composition -/

namespace MathPrograms
namespace Polynomial

open Rational

theorem map_ofRat_eq_zero_iff (a : List ℚ) : a.map ofRat = [0] ↔ a = [0] := by
  constructor
  · intro h
    cases a with
    | nil => simp at h
    | cons x xs =>
      cases xs with
      | nil =>
        simp only [List.map_cons, List.map_nil, List.cons.injEq, and_true] at h
        rw [(ofRat_eq_zero_iff x).1 h]
      | cons y ys => simp at h
  · rintro rfl
    rfl

theorem canon_map (a : List ℚ) : Canon (a.map ofRat) ↔ Canon a := by
  unfold Canon
  rw [getLast?_map_ofRat_eq_zero, map_ofRat_eq_zero_iff]
  simp

theorem exists_of_valid (A : Polynomial Rational) (h : ∀ c ∈ A, Valid c) :
    ∃ a : List ℚ, A = a.map ofRat := by
  refine ⟨A.map toRat, ?_⟩
  rw [List.map_map]
  symm
  calc A.map (ofRat ∘ toRat) = A.map id :=
        List.map_congr_left (fun c hc => ofRat_toRat c (h c hc))
    _ = A := List.map_id A

theorem exists_of_wf (A : Polynomial Rational) (h : WF A) :
    ∃ a : List ℚ, A = a.map ofRat ∧ Canon a := by
  obtain ⟨a, rfl⟩ := exists_of_valid A h.2
  exact ⟨a, rfl, (canon_map a).1 h.1⟩

theorem valid_map_ofRat (a : List ℚ) : ∀ c ∈ a.map ofRat, Valid c := by
  intro c hc
  obtain ⟨q, _, rfl⟩ := List.mem_map.1 hc
  exact valid_ofRat q

theorem wf_map (a : List ℚ) (h : Canon a) : WF (a.map ofRat) :=
  ⟨(canon_map a).2 h, valid_map_ofRat a⟩

theorem mulAssignSized_map (n : Nat) (a b : List ℚ) :
    mulAssignSized n (a.map ofRat) (b.map ofRat) = (mulAssignSized n a b).map ofRat := by
  unfold mulAssignSized
  simp only [List.length_map, resize_map]
  rw [List.foldl_hom (List.map ofRat), deleteNulls_map]
  intro c i
  rw [List.map_set, ← ofRat_zero, convSum_map]

theorem mulAssignSized_getD (n : Nat) (a b : List ℚ) (k : Nat) :
    (mulAssignSized n a b).getD k 0
      = if k < n then ∑ j in Finset.range (k + 1), a.getD j 0 * b.getD (k - j) 0 else 0 := by
  unfold mulAssignSized
  simp only
  rw [deleteNulls_getD,
    getD_forSet (fun i _ =>
      (List.range (i + 1)).foldl (fun acc j => acc + get a j * get b (i - j)) 0),
    length_resize]
  by_cases hk : k < n
  · rw [if_pos ⟨hk, hk⟩, if_pos hk, foldl_add_eq_sum]
    simp only [get_eq_getD]
  · rw [if_neg (fun h => hk h.1), if_neg hk, resize_getD, if_neg hk]

theorem rep_mulAssignSized (n : Nat) (a b : List ℚ) (p q : RatPoly) (ha : Rep a p)
    (hb : Rep b q) (hn : ∀ k, n ≤ k → (p * q).coeff k = 0) :
    Rep (mulAssignSized n a b) (p * q) := by
  intro k
  rw [mulAssignSized_getD]
  split
  · next hk =>
    rw [Polynomial.coeff_mul, Finset.Nat.sum_antidiagonal_eq_sum_range_succ_mk]
    apply Finset.sum_congr rfl
    intro j _
    rw [ha j, hb (k - j)]
  · next hk => exact hn k (not_lt.1 hk)

theorem mul_eq_mulAssignSized (a b : List ℚ) (ha : Canon a) (hb : Canon b) :
    mul a b = mulAssignSized (Degree a + Degree b + 1).toNat a b := by
  obtain ⟨p, hp⟩ := exists_rep a
  obtain ⟨q, hq⟩ := exists_rep b
  apply canon_ext _ _ (p * q) (canon_deleteNulls _) (canon_deleteNulls _)
    (rep_mul a b p q hp hq)
  apply rep_mulAssignSized _ a b p q hp hq
  intro k hk
  by_cases hp0 : p = 0
  · rw [hp0, zero_mul, Polynomial.coeff_zero]
  by_cases hq0 : q = 0
  · rw [hq0, mul_zero, Polynomial.coeff_zero]
  rw [Degree_eq a p ha hp, Degree_eq b q hb hq, if_neg hp0, if_neg hq0] at hk
  apply Polynomial.coeff_eq_zero_of_natDegree_lt
  have := Polynomial.natDegree_mul_le (p := p) (q := q)
  omega

end Polynomial
end MathPrograms

/-! ## Long division -/

namespace MathPrograms
namespace Polynomial

open Rational

theorem getInt_natCast {T : Type} [Zero T] [DecidableEq T] (l : List T) (k : Nat) :
    getInt l (k : Int) = l.getD k 0 := by
  unfold getInt
  rw [if_neg (by omega), Int.toNat_ofNat, get_eq_getD]

theorem set_last_replicate {T : Type} (n : Nat) (z t : T) :
    (List.replicate (n + 1) z).set n t = List.replicate n z ++ [t] := by
  induction n with
  | zero => rfl
  | succ n ih =>
    rw [List.replicate_succ, List.set_cons_succ, ih]
    rfl

theorem rep_monomial_list (n : Nat) (t : ℚ) :
    Rep (List.replicate n 0 ++ [t]) (Polynomial.monomial n t) := by
  intro k
  rw [Polynomial.coeff_monomial]
  by_cases hk : k < n
  · rw [if_neg (by omega), List.getD_append _ _ _ _ (by simpa using hk)]
    simp [List.getElem?_replicate, hk]
  · have hk := not_lt.1 hk
    rw [List.getD_append_right _ _ _ _ (by simpa using hk), List.length_replicate]
    by_cases hkn : n = k
    · subst hkn
      simp
    · rw [if_neg hkn]
      have : k - n = (k - n - 1) + 1 := by omega
      rw [this]
      rfl

/-- The leading coefficient read by `other[other.Degree()]`. -/
theorem getInt_Degree (b : List ℚ) (q : RatPoly) (hb : Canon b) (hq : Rep b q) (hb0 : b ≠ [0]) :
    q ≠ 0 ∧ Degree b = (q.natDegree : Int) ∧ getInt b (Degree b) = q.leadingCoeff := by
  have hq0 : q ≠ 0 := by
    rintro rfl
    exact hb0 (canon_eq_zero_of_rep b hb hq)
  have hd : Degree b = (q.natDegree : Int) := by
    rw [Degree_eq b q hb hq, if_neg hq0]
  refine ⟨hq0, hd, ?_⟩
  rw [hd, getInt_natCast, ← hq]
  rfl

/-- Invariant of the loop of `operator/`: `ans * other + cur` stays the dividend while
the coefficients of `cur` from `Degree(other) + power + 1` on are zero. -/
theorem divLoop_spec (b : List ℚ) (q : RatPoly) (hb : Canon b) (hq : Rep b q) (hb0 : b ≠ [0])
    (n : Nat) :
    ∀ (ans cur : List ℚ) (Pa Pc : RatPoly), Rep ans Pa → Rep cur Pc →
      (∀ k, q.natDegree + n ≤ k → Pc.coeff k = 0) →
      ∃ Pa' Pc' : RatPoly,
        Rep (divLoop b n (ans, cur, List.replicate n 0)).1 Pa' ∧
        Rep (divLoop b n (ans, cur, List.replicate n 0)).2.1 Pc' ∧
        Pa' * q + Pc' = Pa * q + Pc ∧ ∀ k, q.natDegree ≤ k → Pc'.coeff k = 0 := by
  obtain ⟨hq0, hd, hlead⟩ := getInt_Degree b q hb hq hb0
  have hlc : q.leadingCoeff ≠ 0 := Polynomial.leadingCoeff_ne_zero.2 hq0
  induction n with
  | zero =>
    intro ans cur Pa Pc hPa hPc hdeg
    exact ⟨Pa, Pc, hPa, hPc, rfl, by simpa using hdeg⟩
  | succ n ih =>
    intro ans cur Pa Pc hPa hPc hdeg
    simp only [divLoop, List.length_replicate, Nat.add_sub_cancel]
    rw [hlead, hd, ← Nat.cast_add, getInt_natCast, set_last_replicate, List.dropLast_concat,
      ← hPc]
    have hM := rep_monomial_list n (Pc.coeff (q.natDegree + n) / q.leadingCoeff)
    obtain ⟨Pa', Pc', h1, h2, h3, h4⟩ := ih _ _ _ _
      (rep_addAssign _ _ _ _ hPa hM)
      (rep_subAssign _ _ _ _ hPc (rep_mul _ _ _ _ hq hM))
      (by
        intro k hk
        obtain ⟨d, rfl⟩ : ∃ d, k = d + n := ⟨k - n, by omega⟩
        rw [Polynomial.coeff_sub, Polynomial.coeff_mul_monomial]
        by_cases hdq : d = q.natDegree
        · subst hdq
          rw [Polynomial.coeff_natDegree]
          field_simp
        · have hlt : q.natDegree < d := by omega
          rw [Polynomial.coeff_eq_zero_of_natDegree_lt hlt, hdeg (d + n) (by omega)]
          ring)
    refine ⟨Pa', Pc', h1, h2, ?_, h4⟩
    rw [h3]
    ring

theorem resize_zero_eq_replicate (n : Nat) (hn : 0 < n) :
    resize (ofScalar (0 : ℚ)) n 0 = List.replicate n 0 := by
  obtain ⟨m, rfl⟩ : ∃ m, n = m + 1 := ⟨n - 1, by omega⟩
  simp [resize, ofScalar, List.replicate_succ]

theorem Degree_lt_length {T : Type} [Zero T] [DecidableEq T] (a : List T) :
    Degree a < (a.length : Int) := by
  unfold Degree
  split <;> omega

theorem Degree_eq_length_sub_one {T : Type} [Zero T] [DecidableEq T] (a : List T)
    (h : Degree a ≠ -1) : Degree a = (a.length : Int) - 1 := by
  unfold Degree at h ⊢
  split
  · next hc => rw [if_pos hc] at h; exact absurd rfl h
  · rfl

/-- Quotient and remainder at `ℚ`: `A = Q * B + R` with `R` of degree below `Degree(B)`. -/
theorem divide_spec (a b : List ℚ) (p q : RatPoly) (hb : Canon b) (hb0 : b ≠ [0])
    (hp : Rep a p) (hq : Rep b q) :
    ∃ Q R : RatPoly, Rep (divide a b) Q ∧ Rep (modulo a b) R ∧ p = Q * q + R ∧
      ∀ k, q.natDegree ≤ k → R.coeff k = 0 := by
  obtain ⟨hq0, hd, _⟩ := getInt_Degree b q hb hq hb0
  have key : ∃ Q R : RatPoly, Rep (divide a b) Q ∧ p = Q * q + R ∧
      ∀ k, q.natDegree ≤ k → R.coeff k = 0 := by
    unfold divide
    simp only
    split
    · next hlt =>
      refine ⟨0, p, rep_zero, by ring, ?_⟩
      intro k hk
      by_cases hda : Degree a = -1
      · unfold Degree at hda
        split at hda
        · next hc =>
          by_cases hk0 : k = 0
          · rw [hk0, hp 0, hc.2]
          · exact rep_coeff_eq_zero a p hp k (by omega)
        · exact rep_coeff_eq_zero a p hp k (by omega)
      · have := Degree_eq_length_sub_one a hda
        exact rep_coeff_eq_zero a p hp k (by omega)
    · next hge =>
      have hge := not_lt.1 hge
      have hda : Degree a ≠ -1 := by omega
      have hla := Degree_eq_length_sub_one a hda
      obtain ⟨n, hn⟩ : ∃ n : Nat, (Degree a - Degree b + 1).toNat = n + 1 :=
        ⟨(Degree a - Degree b).toNat, by omega⟩
      rw [hn, resize_zero_eq_replicate _ (Nat.succ_pos n)]
      obtain ⟨Pa', Pc', h1, _, h3, h4⟩ := divLoop_spec b q hb hq hb0 (n + 1) (ofScalar 0) a 0 p
        rep_zero hp (by
          intro k hk
          apply rep_coeff_eq_zero a p hp
          omega)
      refine ⟨Pa', Pc', rep_deleteNulls _ _ h1, ?_, h4⟩
      rw [h3]
      ring
  obtain ⟨Q, R, h1, h2, h3⟩ := key
  refine ⟨Q, R, h1, ?_, h2, h3⟩
  unfold modulo
  apply rep_deleteNulls
  have := rep_sub _ _ _ _ hp (rep_mul _ _ _ _ h1 hq)
  have e : p - Q * q = R := by rw [h2]; ring
  rwa [e] at this

section CanonResults

variable {T : Type} [Zero T] [Add T] [Sub T] [Mul T] [Div T] [DecidableEq T]

set_option linter.unusedSectionVars false

theorem canon_addAssign (a b : List T) : Canon (addAssign a b) := by
  unfold addAssign
  exact canon_deleteNulls _

theorem canon_subAssign (a b : List T) : Canon (subAssign a b) := by
  unfold subAssign
  exact canon_deleteNulls _

theorem canon_mulAssign (a b : List T) : Canon (mulAssign a b) := by
  unfold mulAssign
  exact canon_deleteNulls _

theorem canon_add (a b : List T) : Canon (add a b) := canon_addAssign a b

theorem canon_sub (a b : List T) : Canon (sub a b) := canon_subAssign a b

theorem canon_mul (a b : List T) : Canon (mul a b) := canon_mulAssign a b

theorem canon_modulo (a b : List T) : Canon (modulo a b) := by
  unfold modulo
  exact canon_deleteNulls _

end CanonResults

theorem Degree_modulo_lt (a b : List ℚ) (hb : Canon b) (hb0 : b ≠ [0]) :
    Degree (modulo a b) < Degree b := by
  obtain ⟨p, hp⟩ := exists_rep a
  obtain ⟨q, hq⟩ := exists_rep b
  obtain ⟨hq0, hd, _⟩ := getInt_Degree b q hb hq hb0
  obtain ⟨Q, R, _, hR, _, hdeg⟩ := divide_spec a b p q hb hb0 hp hq
  rw [Degree_eq _ R (canon_modulo a b) hR, hd]
  split
  · omega
  · next hR0 =>
    have : R.natDegree < q.natDegree := by
      by_contra hlt
      have := hdeg R.natDegree (not_lt.1 hlt)
      rw [Polynomial.coeff_natDegree] at this
      exact hR0 (Polynomial.leadingCoeff_eq_zero.1 this)
    omega

theorem divide_mul_add_modulo (a b : List ℚ) (ha : Canon a) (hb : Canon b) (hb0 : b ≠ [0]) :
    add (mul (divide a b) b) (modulo a b) = a := by
  obtain ⟨p, hp⟩ := exists_rep a
  obtain ⟨q, hq⟩ := exists_rep b
  obtain ⟨Q, R, hQ, hR, hpe, _⟩ := divide_spec a b p q hb hb0 hp hq
  have hr : Rep (add (mul (divide a b) b) (modulo a b)) p := by
    rw [hpe]
    exact rep_add _ _ _ _ (rep_mul _ _ _ _ hQ hq) hR
  exact canon_ext _ _ p (canon_add _ _) ha hr hp

end Polynomial
end MathPrograms

namespace MathPrograms
namespace Polynomial

open Rational

theorem divLoop_map (b : List ℚ) (hb : getInt b (Degree b) ≠ 0) (n : Nat) :
    ∀ ans cur delt : List ℚ,
      divLoop (b.map ofRat) n (ans.map ofRat, cur.map ofRat, delt.map ofRat)
        = ((divLoop b n (ans, cur, delt)).1.map ofRat,
            (divLoop b n (ans, cur, delt)).2.1.map ofRat,
            (divLoop b n (ans, cur, delt)).2.2.map ofRat) := by
  induction n with
  | zero =>
    intro ans cur delt
    rfl
  | succ n ih =>
    intro ans cur delt
    simp only [divLoop, List.length_map, Degree_map, getInt_map]
    rw [ofRat_div _ _ hb, ← List.map_set, addAssign_map, mul_map, subAssign_map,
      ← List.map_dropLast, ih]

theorem divide_map (a b : List ℚ) (hb : getInt b (Degree b) ≠ 0) :
    divide (a.map ofRat) (b.map ofRat) = (divide a b).map ofRat := by
  unfold divide
  simp only [Degree_map]
  have e : (ofScalar 0 : Polynomial Rational) = List.map ofRat (ofScalar 0) := rfl
  by_cases h : Degree a < Degree b
  · rw [if_pos h, if_pos h, e]
  · rw [if_neg h, if_neg h, e, resize_map, divLoop_map b hb, deleteNulls_map]

theorem modulo_map (a b : List ℚ) (hb : getInt b (Degree b) ≠ 0) :
    modulo (a.map ofRat) (b.map ofRat) = (modulo a b).map ofRat := by
  unfold modulo
  rw [divide_map a b hb, mul_map, sub_map, deleteNulls_map]

theorem lead_ne_zero (b : List ℚ) (hb : Canon b) (hb0 : b ≠ [0]) :
    getInt b (Degree b) ≠ 0 := by
  obtain ⟨q, hq⟩ := exists_rep b
  obtain ⟨hq0, _, hl⟩ := getInt_Degree b q hb hq hb0
  rw [hl]
  exact Polynomial.leadingCoeff_ne_zero.2 hq0

end Polynomial
end MathPrograms

/-! ## Monic reduction -/

namespace MathPrograms
namespace Polynomial

open Rational

section ReduceLoop

variable {T : Type} [Zero T] [Div T] [DecidableEq T]

set_option linter.unusedSectionVars false

theorem length_foldl_set (h : List T → Nat → T) (is : List Nat) (l : List T) :
    (is.foldl (fun c i => c.set i (h c i)) l).length = l.length := by
  induction is generalizing l with
  | nil => rfl
  | cons i is ih => rw [List.foldl_cons, ih, List.length_set]

/-- The in-place loop of `reduce()` after its first `m` iterations: the entries below
`m` are divided by the leading coefficient, which is itself still untouched. -/
theorem reduceLoop_getElem? (l : List T) (m : Nat) (hm : m ≤ l.length) (k : Nat) :
    ((List.range m).foldl
        (fun c i => c.set i (c.getD i 0 / c.getD (c.length - 1) 0)) l)[k]?
      = if k < m then l[k]?.map (fun x => x / l.getD (l.length - 1) 0) else l[k]? := by
  induction m generalizing k with
  | zero => simp
  | succ m ih =>
    have ih := fun k => ih (by omega) k
    rw [List.range_succ, List.foldl_append, List.foldl_cons, List.foldl_nil,
      List.getElem?_set]
    have hlen := length_foldl_set (fun c i => c.getD i 0 / c.getD (c.length - 1) 0)
      (List.range m) l
    rw [hlen]
    by_cases hk : m = k
    · subst hk
      rw [if_pos rfl, if_pos (by omega), if_pos (by omega)]
      have e1 : ((List.range m).foldl
          (fun c i => c.set i (c.getD i 0 / c.getD (c.length - 1) 0)) l).getD m 0
          = l.getD m 0 := by
        rw [List.getD_eq_getElem?_getD, List.getD_eq_getElem?_getD, ih m, if_neg (lt_irrefl m)]
      have e2 : ((List.range m).foldl
          (fun c i => c.set i (c.getD i 0 / c.getD (c.length - 1) 0)) l).getD (l.length - 1) 0
          = l.getD (l.length - 1) 0 := by
        rw [List.getD_eq_getElem?_getD, List.getD_eq_getElem?_getD, ih (l.length - 1), if_neg (by omega)]
      rw [e1, e2, List.getD_eq_getElem _ _ (show m < l.length by omega),
        List.getElem?_eq_getElem (show m < l.length by omega)]
      rfl
    · rw [if_neg hk, ih k]
      by_cases hkm : k < m
      · rw [if_pos hkm, if_pos (by omega)]
      · rw [if_neg hkm, if_neg (by omega)]

/-- Method `reduce()` in closed form: after `deleteNulls()`, every coefficient is
divided by the leading one when that is nonzero. -/
theorem reduce_eq (l : List T) :
    reduce l =
      if 0 < (deleteNulls l).length ∧
          (deleteNulls l).getD ((deleteNulls l).length - 1) 0 ≠ 0 then
        (deleteNulls l).map
          (fun x => x / (deleteNulls l).getD ((deleteNulls l).length - 1) 0)
      else deleteNulls l := by
  unfold reduce
  simp only
  split
  · apply List.ext_getElem?
    intro k
    rw [reduceLoop_getElem? _ _ (le_refl _) k, List.getElem?_map]
    split
    · rfl
    · next hk => rw [List.getElem?_eq_none (not_lt.1 hk)]; rfl
  · rfl

theorem Degree_eq_neg_one_iff (l : List T) (h : Canon l) : Degree l = -1 ↔ l = [0] := by
  constructor
  · intro hd
    unfold Degree at hd
    split at hd
    · next hc =>
      obtain ⟨x, rfl⟩ := List.length_eq_one.1 hc.1
      have := hc.2
      simp only [List.getD_cons_zero] at this
      rw [this]
    · have := List.length_pos.2 h.1
      omega
  · rintro rfl
    unfold Degree
    simp

theorem reduce_of_canon (l : List T) (h : Canon l) : reduce l = monic l := by
  rw [reduce_eq, deleteNulls_of_canon l h]
  unfold monic
  by_cases hz : l = [0]
  · rw [if_pos hz, if_neg]
    rw [hz]
    simp
  · rw [if_neg hz, if_pos ⟨List.length_pos.2 h.1, canon_last_ne_zero l h hz⟩]

end ReduceLoop

theorem reduce_zero : reduce ([0] : List ℚ) = [0] := by
  rw [reduce_of_canon _ (by decide)]
  rfl

theorem monic_getD (a : List ℚ) (h : a ≠ [0]) (k : Nat) :
    (monic a).getD k 0 = a.getD k 0 / a.getD (a.length - 1) 0 := by
  unfold monic
  rw [if_neg h]
  have := List.getD_map (l := a) (d := 0) (n := k) (fun c => c / a.getD (a.length - 1) 0)
  rw [zero_div] at this
  exact this

theorem rep_monic (a : List ℚ) (p : RatPoly) (ha : Canon a) (hp : Rep a p) :
    Rep (monic a) (p * Polynomial.C p.leadingCoeff⁻¹) := by
  by_cases hz : a = [0]
  · subst hz
    rw [rep_unique _ _ _ hp rep_zero]
    simpa [monic] using rep_zero
  · intro k
    obtain ⟨_, hd, hl⟩ := getInt_Degree a p ha hp hz
    have hlen : ((a.length - 1 : Nat) : Int) = Degree a := by
      have h1 : Degree a ≠ -1 := fun h => hz ((Degree_eq_neg_one_iff a ha).1 h)
      have := Degree_eq_length_sub_one a h1
      have := List.length_pos.2 ha.1
      omega
    rw [monic_getD a hz, Polynomial.coeff_mul_C, ← hp k, ← hl, ← hlen, getInt_natCast,
      div_eq_mul_inv]

theorem canon_monic (a : List ℚ) (ha : Canon a) : Canon (monic a) := by
  by_cases hz : a = [0]
  · subst hz
    exact ha
  · have hlast := canon_last_ne_zero a ha hz
    have hlen : (monic a).length = a.length := by
      unfold monic
      rw [if_neg hz, List.length_map]
    have hpos := List.length_pos.2 ha.1
    refine ⟨List.length_pos.1 (by omega), fun h0 => ?_⟩
    exfalso
    rw [List.getLast?_eq_getElem?, hlen] at h0
    have e := monic_getD a hz (a.length - 1)
    rw [List.getD_eq_getElem?_getD, h0, div_self hlast] at e
    simp at e

theorem monic_eq_zero_iff (a : List ℚ) : monic a = [0] ↔ a = [0] := by
  constructor
  · intro h
    by_contra hz
    unfold monic at h
    rw [if_neg hz] at h
    obtain ⟨x, rfl⟩ := List.length_eq_one.1 (by simpa using congrArg List.length h)
    have hx : x ≠ 0 := fun h0 => hz (by rw [h0])
    simp [hx] at h
  · rintro rfl
    rfl

theorem Degree_monic (a : List ℚ) (ha : Canon a) : Degree (monic a) = Degree a := by
  by_cases hz : a = [0]
  · subst hz
    rfl
  · have h1 : Degree a ≠ -1 := fun h => hz ((Degree_eq_neg_one_iff a ha).1 h)
    have h2 : Degree (monic a) ≠ -1 := fun h =>
      hz ((monic_eq_zero_iff a).1 ((Degree_eq_neg_one_iff _ (canon_monic a ha)).1 h))
    rw [Degree_eq_length_sub_one _ h1, Degree_eq_length_sub_one _ h2]
    unfold monic
    rw [if_neg hz, List.length_map]

theorem monic_map (a : List ℚ) (ha : Canon a) :
    monic (a.map ofRat) = (monic a).map ofRat := by
  unfold monic
  by_cases hz : a = [0]
  · rw [if_pos hz, if_pos ((map_ofRat_eq_zero_iff a).2 hz)]
  · rw [if_neg hz, if_neg (fun h => hz ((map_ofRat_eq_zero_iff a).1 h)), List.map_map, List.map_map, List.length_map, getD_map_ofRat]
    apply List.map_congr_left
    intro x _
    exact ofRat_div x _ (canon_last_ne_zero a ha hz)

theorem reduce_map (a : List ℚ) (ha : Canon a) :
    reduce (a.map ofRat) = (reduce a).map ofRat := by
  rw [reduce_of_canon _ ((canon_map a).2 ha), reduce_of_canon a ha, monic_map a ha]

end Polynomial
end MathPrograms

/-! ## Greatest common divisor -/

namespace MathPrograms
namespace Polynomial

open Rational

theorem Degree_ge {T : Type} [Zero T] [DecidableEq T] (l : List T) : -1 ≤ Degree l := by
  unfold Degree
  split <;> omega

/-- A divisor leaves the remainder zero. -/
theorem modulo_eq_zero_of_dvd (a g : List ℚ) (P G : RatPoly) (hg : Canon g) (hg0 : g ≠ [0])
    (hP : Rep a P) (hG : Rep g G) (hd : G ∣ P) : modulo a g = [0] := by
  obtain ⟨Q, R, _, hR, hpe, hdeg⟩ := divide_spec a g P G hg hg0 hP hG
  have hR0 : R = 0 := by
    by_contra hne
    have hdvd : G ∣ R := by
      have : R = P - Q * G := by rw [hpe]; ring
      rw [this]
      exact dvd_sub hd (Dvd.intro_left Q rfl)
    have hle := Polynomial.natDegree_le_of_dvd hdvd hne
    have := hdeg R.natDegree hle
    rw [Polynomial.coeff_natDegree] at this
    exact hne (Polynomial.leadingCoeff_eq_zero.1 this)
  rw [hR0] at hR
  exact canon_eq_zero_of_rep _ (canon_modulo a g) hR

theorem dvd_of_dvd_monic (a : List ℚ) (P P' G : RatPoly) (ha : Canon a) (hP : Rep a P)
    (hP' : Rep (monic a) P') (hd : G ∣ P') : G ∣ P := by
  have e := rep_unique _ _ _ hP' (rep_monic a P ha hP)
  by_cases hP0 : P = 0
  · rw [hP0]
    exact dvd_zero G
  · have hlc : P.leadingCoeff ≠ 0 := Polynomial.leadingCoeff_ne_zero.2 hP0
    have : P = P' * Polynomial.C P.leadingCoeff := by
      rw [e, mul_assoc, ← Polynomial.C_mul, inv_mul_cancel₀ hlc, Polynomial.C_1, mul_one]
    rw [this]
    exact Dvd.dvd.mul_right hd _

theorem monic_dvd (a : List ℚ) (P P' : RatPoly) (ha : Canon a) (hP : Rep a P)
    (hP' : Rep (monic a) P') : P' ∣ P :=
  dvd_of_dvd_monic a P P' P' ha hP hP' (dvd_refl P')

/-- One execution of the reduction step `a = a % b; a.reduce();`. -/
theorem gcd_step (a b : List ℚ) (hb : Canon b) (hb0 : b ≠ [0]) :
    Canon (reduce (modulo a b)) ∧ Degree (reduce (modulo a b)) < Degree b ∧
      ∀ P Q P' G : RatPoly, Rep a P → Rep b Q → Rep (reduce (modulo a b)) P' →
        G ∣ P' → G ∣ Q → G ∣ P := by
  have hm : Canon (modulo a b) := canon_modulo a b
  rw [reduce_of_canon _ hm]
  refine ⟨canon_monic _ hm, ?_, ?_⟩
  · rw [Degree_monic _ hm]
    exact Degree_modulo_lt a b hb hb0
  · intro P Q P' G hP hQ hP' h1 h2
    obtain ⟨Q0, R, _, hR, hpe, _⟩ := divide_spec a b P Q hb hb0 hP hQ
    have hGR : G ∣ R := dvd_of_dvd_monic _ R P' G hm hR hP' h1
    rw [hpe]
    exact dvd_add (Dvd.dvd.mul_left h2 Q0) hGR

/-- The loop of `operator,` reaches a `break` within `Degree(a) + Degree(b) + 3`
iterations, and what it returns divides both operands. -/
theorem gcdLoop_spec (fuel : Nat) :
    ∀ a b : List ℚ, Canon a → Canon b → Degree a + Degree b + 2 < (fuel : Int) →
      ∃ g, gcdLoop fuel a b = some g ∧ Canon g ∧ ((a ≠ [0] ∨ b ≠ [0]) → g ≠ [0]) ∧
        ∀ P Q G : RatPoly, Rep a P → Rep b Q → Rep g G → G ∣ P ∧ G ∣ Q := by
  induction fuel with
  | zero =>
    intro a b _ _ h
    have := Degree_ge a
    have := Degree_ge b
    omega
  | succ fuel ih =>
    intro a b ha hb hf
    unfold gcdLoop
    by_cases h1 : Degree a = -1
    · rw [if_pos h1]
      have ha0 := (Degree_eq_neg_one_iff a ha).1 h1
      refine ⟨b, rfl, hb, fun h => h.resolve_left (fun hn => hn ha0), ?_⟩
      intro P Q G hP hQ hG
      subst ha0
      rw [rep_unique _ _ _ hP rep_zero, rep_unique _ _ _ hG hQ]
      exact ⟨dvd_zero Q, dvd_refl Q⟩
    rw [if_neg h1]
    by_cases h2 : Degree b = -1
    · rw [if_pos h2]
      have hb0 := (Degree_eq_neg_one_iff b hb).1 h2
      refine ⟨a, rfl, ha, fun h => h.resolve_right (fun hn => hn hb0), ?_⟩
      intro P Q G hP hQ hG
      subst hb0
      rw [rep_unique _ _ _ hQ rep_zero, rep_unique _ _ _ hG hP]
      exact ⟨dvd_refl P, dvd_zero P⟩
    rw [if_neg h2]
    have ha0 : a ≠ [0] := fun h => h1 ((Degree_eq_neg_one_iff a ha).2 h)
    have hb0 : b ≠ [0] := fun h => h2 ((Degree_eq_neg_one_iff b hb).2 h)
    by_cases h3 : Degree a ≥ Degree b
    · rw [if_pos h3]
      obtain ⟨hc, hdeg, hdvd⟩ := gcd_step a b hb hb0
      obtain ⟨g, hg, hgc, hgz, hgd⟩ := ih _ b hc hb (by omega)
      refine ⟨g, hg, hgc, fun _ => hgz (Or.inr hb0), ?_⟩
      intro P Q G hP hQ hG
      obtain ⟨P', hP'⟩ := exists_rep (reduce (modulo a b))
      obtain ⟨d1, d2⟩ := hgd P' Q G hP' hQ hG
      exact ⟨hdvd P Q P' G hP hQ hP' d1 d2, d2⟩
    · rw [if_neg h3]
      obtain ⟨hc, hdeg, hdvd⟩ := gcd_step b a ha ha0
      obtain ⟨g, hg, hgc, hgz, hgd⟩ := ih a _ ha hc (by omega)
      refine ⟨g, hg, hgc, fun _ => hgz (Or.inl ha0), ?_⟩
      intro P Q G hP hQ hG
      obtain ⟨Q', hQ'⟩ := exists_rep (reduce (modulo b a))
      obtain ⟨d1, d2⟩ := hgd P Q' G hP hQ' hG
      exact ⟨d1, hdvd Q P Q' G hQ hP hQ' d2 d1⟩

/-- The result of `operator,` at `ℚ` when the operands are not both zero. -/
theorem gcd_spec (fuel : Nat) (a b : List ℚ) (ha : Canon a) (hb : Canon b)
    (hf : a.length + b.length < fuel) (hne : ¬ (a = [0] ∧ b = [0])) :
    ∃ g, gcd fuel a b = some g ∧ Canon g ∧ g ≠ [0] ∧ getInt g (Degree g) = 1 ∧
      modulo a g = [0] ∧ modulo b g = [0] := by
  have hfuel : Degree a + Degree b + 2 < (fuel : Int) := by
    have := Degree_lt_length a
    have := Degree_lt_length b
    omega
  obtain ⟨g0, hg0, hc0, hz0, hd0⟩ := gcdLoop_spec fuel a b ha hb hfuel
  have hg0z : g0 ≠ [0] := hz0 (by
    by_contra h
    push_neg at h
    exact hne h)
  obtain ⟨P, hP⟩ := exists_rep a
  obtain ⟨Q, hQ⟩ := exists_rep b
  obtain ⟨G0, hG0⟩ := exists_rep g0
  obtain ⟨dP, dQ⟩ := hd0 P Q G0 hP hQ hG0
  have hmon := rep_monic g0 G0 hc0 hG0
  have hcm := canon_monic g0 hc0
  have hmz : monic g0 ≠ [0] := fun h => hg0z ((monic_eq_zero_iff g0).1 h)
  have hdvd := monic_dvd g0 G0 _ hc0 hG0 hmon
  refine ⟨monic g0, ?_, hcm, hmz, ?_, ?_, ?_⟩
  · unfold gcd
    simp only [ofScalar]
    rw [deleteNulls_of_canon a ha, deleteNulls_of_canon b hb, if_neg hne, hg0]
    simp only [Option.map_some']
    rw [deleteNulls_of_canon g0 hc0, reduce_of_canon g0 hc0]
  · obtain ⟨hG0z, _, hl⟩ := getInt_Degree (monic g0) _ hcm hmon hmz
    rw [hl]
    have hG00 : G0 ≠ 0 := fun h => hG0z (by rw [h, zero_mul])
    have hlc : G0.leadingCoeff ≠ 0 := Polynomial.leadingCoeff_ne_zero.2 hG00
    rw [Polynomial.leadingCoeff_mul, Polynomial.leadingCoeff_C, mul_inv_cancel₀ hlc]
  · exact modulo_eq_zero_of_dvd a _ P _ hcm hmz hP hmon (dvd_trans hdvd dP)
  · exact modulo_eq_zero_of_dvd b _ Q _ hcm hmz hQ hmon (dvd_trans hdvd dQ)

theorem gcd_zero_right (fuel : Nat) (a : List ℚ) (ha : Canon a) (hf : 0 < fuel) :
    gcd fuel a [0] = some (monic a) := by
  unfold gcd
  simp only [ofScalar]
  rw [deleteNulls_of_canon a ha, deleteNulls_of_canon [0] (by decide)]
  by_cases hz : a = [0]
  · rw [if_pos ⟨hz, rfl⟩, hz]
    rfl
  · rw [if_neg (fun h => hz h.1)]
    obtain ⟨f, rfl⟩ : ∃ f, fuel = f + 1 := ⟨fuel - 1, by omega⟩
    unfold gcdLoop
    have h1 : Degree a ≠ -1 := fun h => hz ((Degree_eq_neg_one_iff a ha).1 h)
    have h2 : Degree ([0] : List ℚ) = -1 := by decide
    rw [if_neg h1, if_pos h2]
    simp only [Option.map_some']
    rw [deleteNulls_of_canon a ha, reduce_of_canon a ha]

theorem gcd_self (fuel : Nat) (a : List ℚ) (ha : Canon a) (hf : 1 < fuel) :
    gcd fuel a a = some (monic a) := by
  unfold gcd
  simp only [ofScalar]
  rw [deleteNulls_of_canon a ha]
  by_cases hz : a = [0]
  · rw [if_pos ⟨hz, hz⟩, hz]
    rfl
  · rw [if_neg (fun h => hz h.1)]
    obtain ⟨f, rfl⟩ : ∃ f, fuel = f + 2 := ⟨fuel - 2, by omega⟩
    have h1 : Degree a ≠ -1 := fun h => hz ((Degree_eq_neg_one_iff a ha).1 h)
    obtain ⟨P, hP⟩ := exists_rep a
    have hm : modulo a a = [0] := modulo_eq_zero_of_dvd a a P P ha hz hP hP (dvd_refl P)
    have h2 : Degree ([0] : List ℚ) = -1 := by decide
    have e : gcdLoop (f + 2) a a = some a := by
      rw [gcdLoop, if_neg h1, if_neg h1, if_pos (le_refl _), hm, reduce_zero, gcdLoop,
        if_pos h2]
    rw [e]
    simp only [Option.map_some']
    rw [deleteNulls_of_canon a ha, reduce_of_canon a ha]

end Polynomial
end MathPrograms

namespace MathPrograms
namespace Polynomial

open Rational

theorem gcdLoop_map (fuel : Nat) :
    ∀ a b : List ℚ, Canon a → Canon b →
      gcdLoop fuel (a.map ofRat) (b.map ofRat) = (gcdLoop fuel a b).map (List.map ofRat) := by
  induction fuel with
  | zero =>
    intro a b _ _
    rfl
  | succ fuel ih =>
    intro a b ha hb
    simp only [gcdLoop, Degree_map]
    by_cases h1 : Degree a = -1
    · rw [if_pos h1, if_pos h1]
      rfl
    rw [if_neg h1, if_neg h1]
    by_cases h2 : Degree b = -1
    · rw [if_pos h2, if_pos h2]
      rfl
    rw [if_neg h2, if_neg h2]
    have ha0 : a ≠ [0] := fun h => h1 ((Degree_eq_neg_one_iff a ha).2 h)
    have hb0 : b ≠ [0] := fun h => h2 ((Degree_eq_neg_one_iff b hb).2 h)
    by_cases h3 : Degree a ≥ Degree b
    · rw [if_pos h3, if_pos h3, modulo_map a b (lead_ne_zero b hb hb0),
        reduce_map _ (canon_modulo a b), ih _ _ (gcd_step a b hb hb0).1 hb]
    · rw [if_neg h3, if_neg h3, modulo_map b a (lead_ne_zero a ha ha0),
        reduce_map _ (canon_modulo b a), ih _ _ ha (gcd_step b a ha ha0).1]

theorem gcd_map (fuel : Nat) (a b : List ℚ) (ha : Canon a) (hb : Canon b) :
    gcd fuel (a.map ofRat) (b.map ofRat) = (gcd fuel a b).map (List.map ofRat) := by
  unfold gcd
  simp only [ofScalar, deleteNulls_map, deleteNulls_of_canon a ha, deleteNulls_of_canon b hb,
    map_ofRat_eq_zero_iff]
  by_cases h : a = [0] ∧ b = [0]
  · rw [if_pos h, if_pos h]
    rfl
  · rw [if_neg h, if_neg h, gcdLoop_map fuel a b ha hb, Option.map_map, Option.map_map]
    congr 1
    funext g
    simp only [Function.comp_apply]
    rw [deleteNulls_map, reduce_map _ (canon_deleteNulls g)]

end Polynomial
end MathPrograms

/-! ## Comparisons and division by zero of `Rational` with `abs` exact -/

namespace MathPrograms
namespace Rational

theorem eq_iff (x y : Rational) : eq x y = true ↔ x = y := by
  obtain ⟨a, b⟩ := x
  obtain ⟨c, d⟩ := y
  simp [eq, numerator, denominator]

theorem numerator_ofRat (q : ℚ) : (ofRat q).numerator = q.num := rfl

/-- With `abs` exact: on values satisfying the invariant, each comparison agrees with
the sign of the numerator of `x - y`, and exactly one of `x < y`, `x == y`, `x > y`
holds. -/
theorem comparison_sign (x y : Rational) (hx : Valid x) (hy : Valid y) :
    (eq x y = true ↔ (x - y).numerator = 0) ∧
    (lt x y = true ↔ (x - y).numerator < 0) ∧
    (gt x y = true ↔ 0 < (x - y).numerator) ∧
    (ne x y = true ↔ (x - y).numerator ≠ 0) ∧
    ((lt x y = true ∧ eq x y = false ∧ gt x y = false) ∨
      (lt x y = false ∧ eq x y = true ∧ gt x y = false) ∨
      (lt x y = false ∧ eq x y = false ∧ gt x y = true)) := by
  obtain ⟨p, rfl⟩ := (valid_iff_exists_ofRat x).1 hx
  obtain ⟨q, rfl⟩ := (valid_iff_exists_ofRat y).1 hy
  have h1 : eq (ofRat p) (ofRat q) = true ↔ (ofRat p - ofRat q).numerator = 0 := by
    rw [eq_iff, ofRat_sub, numerator_ofRat, Rat.num_eq_zero, sub_eq_zero]
    exact ofRat_injective.eq_iff
  have h2 : lt (ofRat p) (ofRat q) = true ↔ (ofRat p - ofRat q).numerator < 0 := by
    simp [lt]
  have h3 : gt (ofRat p) (ofRat q) = true ↔ 0 < (ofRat p - ofRat q).numerator := by
    have : lt (ofRat q) (ofRat p) = true ↔ (ofRat q - ofRat p).numerator < 0 := by
      simp [lt]
    unfold gt
    rw [this, ofRat_sub, ofRat_sub, numerator_ofRat, numerator_ofRat, Rat.num_neg,
      Rat.num_pos]
    constructor <;> intro h <;> linarith
  have h4 : ne (ofRat p) (ofRat q) = true ↔ (ofRat p - ofRat q).numerator ≠ 0 := by
    unfold ne
    rw [ne_eq, ← h1]
    simp
  refine ⟨h1, h2, h3, h4, ?_⟩
  have e1 : eq (ofRat p) (ofRat q) = false ↔ ¬ (ofRat p - ofRat q).numerator = 0 := by
    rw [← h1]; simp
  have e2 : lt (ofRat p) (ofRat q) = false ↔ ¬ (ofRat p - ofRat q).numerator < 0 := by
    rw [← h2]; simp
  have e3 : gt (ofRat p) (ofRat q) = false ↔ ¬ 0 < (ofRat p - ofRat q).numerator := by
    rw [← h3]; simp
  rw [h1, h2, h3, e1, e2, e3]
  omega

theorem div_zero_eq (x : Rational) :
    x / 0 = if x.numerator = 0 then ⟨0, 1⟩ else ⟨x.numerator.sign, 0⟩ := by
  show mul x (ctor (0 : Rational).denominator (0 : Rational).numerator) = _
  have e : ctor (0 : Rational).denominator (0 : Rational).numerator = ⟨1, 0⟩ := by decide
  rw [e]
  unfold mul ctor
  simp only [numerator, denominator, mul_one, mul_zero]
  by_cases hx : x.a = 0
  · simp [hx]
  · simp only [ne_eq, hx, not_false_eq_true, if_true, lt_irrefl, if_false, reduce,
      Int.natAbs_zero, Nat.gcd_zero_right, Int.natCast_natAbs]
    congr 1
    · rw [Int.tdiv_eq_ediv_of_dvd (abs_dvd_self x.a)]
      rcases lt_or_gt_of_ne hx with h | h
      · rw [abs_of_neg h, Int.sign_eq_neg_one_of_neg h, Int.ediv_neg, Int.ediv_self hx]
      · rw [abs_of_pos h, Int.sign_eq_one_of_pos h, Int.ediv_self hx]
    · simp

end Rational
end MathPrograms

/-! ## Canonical form as an invariant, termination of the gcd loop -/

namespace MathPrograms
namespace Polynomial

open Rational

section CanonGeneric

variable {T : Type} [Zero T] [Add T] [Sub T] [Mul T] [Div T] [DecidableEq T]

set_option linter.unusedSectionVars false

theorem canon_ofScalar (x : T) : Canon (ofScalar x) := by
  refine ⟨by simp [ofScalar], fun h => ?_⟩
  simp only [ofScalar, List.getLast?_singleton, Option.some.injEq] at h
  rw [ofScalar, h]

theorem canon_ofVector (v : List T) : Canon (ofVector v) :=
  canon_deleteNulls v

theorem canon_scaleAssign (a : List T) (x : T) : Canon (scaleAssign a x) := by
  unfold scaleAssign
  exact canon_deleteNulls _

theorem canon_compose (a b : List T) : Canon (compose a b) := by
  unfold compose
  exact canon_deleteNulls _

theorem canon_divide (a b : List T) : Canon (divide a b) := by
  unfold divide
  simp only
  split
  · exact canon_ofScalar 0
  · exact canon_deleteNulls _

end CanonGeneric

theorem canon_gcd (fuel : Nat) (a b g : List ℚ) (h : gcd fuel a b = some g) : Canon g := by
  unfold gcd at h
  simp only at h
  split at h
  · rw [← Option.some.inj h]
    exact canon_ofScalar 0
  · cases hl : gcdLoop fuel (deleteNulls a) (deleteNulls b) with
    | none => rw [hl] at h; simp at h
    | some g0 =>
      rw [hl] at h
      simp only [Option.map_some', Option.some.injEq] at h
      rw [← h, reduce_of_canon _ (canon_deleteNulls _)]
      exact canon_monic _ (canon_deleteNulls _)

/-- C11: canonical form is an invariant.  The constructors (from any coefficient
sequence, the empty one included, or from a scalar) and `+`, `-`, `*`, scalar scaling,
`&`, `/`, `%` give a non-empty sequence whose last coefficient is zero only in `[0]`,
and so does `operator,` on polynomials over the fraction field; canonicalizing a
canonical polynomial leaves it unchanged, and its `Degree()` is `-1` exactly when it is
`[0]`. -/
theorem C11_canonical_invariant (v : List Rational) (x : Rational)
    (a b : Polynomial Rational) (ha : WF a) (hb : WF b) (fuel : Nat) :
    Canon (ofVector v) ∧ Canon (ofVector ([] : List Rational)) ∧ Canon (ofScalar x) ∧
    Canon (add a b) ∧ Canon (sub a b) ∧ Canon (mul a b) ∧
    Canon (scaleAssign a x) ∧ Canon (mulScalar a x) ∧ Canon (compose a b) ∧
    Canon (divide a b) ∧ Canon (modulo a b) ∧
    (∀ G, gcd fuel a b = some G → Canon G) ∧
    (∀ p : Polynomial Rational, Canon p →
      deleteNulls p = p ∧ (Degree p = -1 ↔ p = ofScalar 0)) := by
  refine ⟨canon_ofVector v, canon_ofVector _, canon_ofScalar x, canon_add a b, canon_sub a b,
    canon_mul a b, canon_scaleAssign a x, canon_mul a _, canon_compose a b,
    canon_divide a b, canon_modulo a b, ?_, ?_⟩
  · intro G hG
    obtain ⟨a', rfl, ha'⟩ := exists_of_wf a ha
    obtain ⟨b', rfl, hb'⟩ := exists_of_wf b hb
    rw [gcd_map fuel a' b' ha' hb'] at hG
    cases hg : gcd fuel a' b' with
    | none => rw [hg] at hG; simp at hG
    | some g =>
      rw [hg] at hG
      simp only [Option.map_some', Option.some.injEq] at hG
      rw [← hG, canon_map]
      exact canon_gcd fuel a' b' g hg
  · intro p hp
    exact ⟨deleteNulls_of_canon p hp, Degree_eq_neg_one_iff p hp⟩

theorem C11_canonical_invariant_witness :
    Canon (modulo ([⟨1, 2⟩, ⟨0, 1⟩, ⟨-3, 1⟩] : Polynomial Rational) [⟨2, 3⟩, ⟨1, 1⟩]) :=
  (C11_canonical_invariant [0, 0] ⟨5, 7⟩ [⟨1, 2⟩, ⟨0, 1⟩, ⟨-3, 1⟩] [⟨2, 3⟩, ⟨1, 1⟩]
    (by decide) (by decide) 6).2.2.2.2.2.2.2.2.2.2.1

end Polynomial
end MathPrograms

/-! ## The expression parser -/

namespace MathPrograms
namespace Rational

theorem getSum_succ (fuel : Nat) (s : List Char) (pos : Nat) :
    getSum (fuel + 1) s pos =
      match getProduct fuel s pos with
      | none => none
      | some (res, pos) => sumLoop fuel s res pos := rfl

theorem getProduct_succ (fuel : Nat) (s : List Char) (pos : Nat) :
    getProduct (fuel + 1) s pos =
      match getSubExpr fuel s pos with
      | none => none
      | some (res, pos) => productLoop fuel s res pos := rfl

theorem sumLoop_succ (fuel : Nat) (s : List Char) (res : Rational) (pos : Nat) :
    sumLoop (fuel + 1) s res pos =
      if pos < s.length ∧
          (s.getD pos (Char.ofNat 0) = '+' ∨ s.getD pos (Char.ofNat 0) = '-') then
        match getProduct fuel s (pos + 1) with
        | none => none
        | some (other, pos') =>
          sumLoop fuel s
            (if s.getD pos (Char.ofNat 0) = '+' then res + other else res - other) pos'
      else
        some (res, pos) := rfl

theorem productLoop_succ (fuel : Nat) (s : List Char) (res : Rational) (pos : Nat) :
    productLoop (fuel + 1) s res pos =
      if pos < s.length ∧
          (s.getD pos (Char.ofNat 0) = '*' ∨ s.getD pos (Char.ofNat 0) = '/') then
        match getSubExpr fuel s (pos + 1) with
        | none => none
        | some (other, pos') =>
          productLoop fuel s
            (if s.getD pos (Char.ofNat 0) = '*' then res * other else res / other) pos'
      else
        some (res, pos) := rfl

theorem getSubExpr_succ (fuel : Nat) (s : List Char) (pos : Nat) :
    getSubExpr (fuel + 1) s pos =
      match charAt s pos with
      | none => none
      | some c =>
        if c = '(' then
          match getSum fuel s (pos + 1) with
          | none => none
          | some (res, pos') => some (res, pos' + 1)
        else
          getNum fuel s pos := rfl

theorem getSum_zero (s : List Char) (pos : Nat) : getSum 0 s pos = none := by
  rw [getSum]

theorem getProduct_zero (s : List Char) (pos : Nat) : getProduct 0 s pos = none := by
  rw [getProduct]

theorem sumLoop_zero (s : List Char) (res : Rational) (pos : Nat) :
    sumLoop 0 s res pos = none := by
  rw [sumLoop]

theorem productLoop_zero (s : List Char) (res : Rational) (pos : Nat) :
    productLoop 0 s res pos = none := by
  rw [productLoop]

theorem getSubExpr_zero (s : List Char) (pos : Nat) : getSubExpr 0 s pos = none := by
  rw [getSubExpr]

end Rational
end MathPrograms

namespace MathPrograms
namespace Rational

theorem charAt_of_le (s : List Char) (pos : Nat) (h : pos ≤ s.length) :
    ∃ c, charAt s pos = some c := by
  unfold charAt
  by_cases h1 : pos < s.length
  · exact ⟨_, if_pos h1⟩
  · have h2 : pos = s.length := by omega
    exact ⟨_, by rw [if_neg h1, if_pos h2]⟩

theorem charAt_lt (s : List Char) (pos : Nat) (c : Char) (h : charAt s pos = some c)
    (hc : c ≠ Char.ofNat 0) : pos < s.length := by
  unfold charAt at h
  by_contra hlt
  rw [if_neg hlt] at h
  split at h
  · exact hc (Option.some.inj h).symm
  · simp at h

theorem charAt_eq_getD (s : List Char) (pos : Nat) (h : pos < s.length) :
    charAt s pos = some (s.getD pos (Char.ofNat 0)) := by
  unfold charAt
  rw [if_pos h]

theorem digit_ne_zero (c : Char) (h : '0' ≤ c ∧ c ≤ '9') : c ≠ Char.ofNat 0 := by
  rintro rfl
  exact absurd h.1 (by decide)

theorem digitLoop_zero (s : List Char) (num : Int) (pos : Nat) :
    digitLoop 0 s num pos = none := rfl

theorem digitLoop_succ (fuel : Nat) (s : List Char) (num : Int) (pos : Nat) :
    digitLoop (fuel + 1) s num pos =
      match charAt s pos with
      | none => none
      | some c =>
        if '0' ≤ c ∧ c ≤ '9' then
          digitLoop fuel s (num * 10 + ((c.toNat : Int) - ('0'.toNat : Int))) (pos + 1)
        else
          some (num, pos) := rfl

/-- The digit loop never moves `pos` back, and more fuel does not change its result. -/
theorem digitLoop_step (s : List Char) (fuel : Nat) :
    ∀ (num : Int) (pos : Nat) (v : Int) (pos' : Nat),
      digitLoop fuel s num pos = some (v, pos') →
        pos ≤ pos' ∧ digitLoop (fuel + 1) s num pos = some (v, pos') := by
  induction fuel with
  | zero =>
    intro num pos v pos' h
    rw [digitLoop_zero] at h
    simp at h
  | succ fuel ih =>
    intro num pos v pos' h
    rw [digitLoop_succ] at h
    rw [digitLoop_succ (fuel + 1)]
    cases hc : charAt s pos with
    | none => rw [hc] at h; simp at h
    | some c =>
      rw [hc] at h
      simp only at h ⊢
      by_cases hd : '0' ≤ c ∧ c ≤ '9'
      · rw [if_pos hd] at h ⊢
        obtain ⟨h1, h2⟩ := ih _ _ _ _ h
        exact ⟨by omega, h2⟩
      · rw [if_neg hd] at h ⊢
        simp only [Option.some.injEq, Prod.mk.injEq] at h
        exact ⟨by omega, by rw [h.1, h.2]⟩

/-- The digit loop ends within `s.size() + 1 - pos` iterations, reading no character
beyond the terminator. -/
theorem digitLoop_total (s : List Char) (fuel : Nat) :
    ∀ (num : Int) (pos : Nat), pos ≤ s.length → s.length + 1 - pos ≤ fuel →
      ∃ v pos', digitLoop fuel s num pos = some (v, pos') := by
  induction fuel with
  | zero =>
    intro num pos h1 h2
    omega
  | succ fuel ih =>
    intro num pos h1 h2
    rw [digitLoop_succ]
    obtain ⟨c, hc⟩ := charAt_of_le s pos h1
    rw [hc]
    simp only
    by_cases hd : '0' ≤ c ∧ c ≤ '9'
    · rw [if_pos hd]
      have := charAt_lt s pos c hc (digit_ne_zero c hd)
      exact ih _ _ (by omega) (by omega)
    · rw [if_neg hd]
      exact ⟨_, _, rfl⟩

theorem getNum_step (s : List Char) (fuel : Nat) (pos : Nat) (r : Rational) (pos' : Nat)
    (h : getNum fuel s pos = some (r, pos')) :
    pos ≤ pos' ∧ getNum (fuel + 1) s pos = some (r, pos') := by
  unfold getNum at h ⊢
  cases hc : charAt s pos with
  | none => rw [hc] at h; simp at h
  | some c =>
    rw [hc] at h
    simp only at h ⊢
    cases hd : digitLoop fuel s 0 (if c = '-' then pos + 1 else pos) with
    | none => rw [hd] at h; simp at h
    | some vp =>
      obtain ⟨v, p⟩ := vp
      rw [hd] at h
      obtain ⟨h1, h2⟩ := digitLoop_step s fuel _ _ _ _ hd
      rw [h2]
      simp only [Option.some.injEq, Prod.mk.injEq] at h ⊢
      refine ⟨?_, h⟩
      have : pos ≤ (if c = '-' then pos + 1 else pos) := by split <;> omega
      omega

theorem getNum_total (s : List Char) (fuel : Nat) (pos : Nat) (h1 : pos ≤ s.length)
    (h2 : s.length + 1 - pos ≤ fuel) : ∃ r pos', getNum fuel s pos = some (r, pos') := by
  unfold getNum
  obtain ⟨c, hc⟩ := charAt_of_le s pos h1
  rw [hc]
  simp only
  have hp : (if c = '-' then pos + 1 else pos) ≤ s.length ∧
      s.length + 1 - (if c = '-' then pos + 1 else pos) ≤ fuel := by
    by_cases hm : c = '-'
    · have := charAt_lt s pos c hc (by rw [hm]; decide)
      rw [if_pos hm]
      omega
    · rw [if_neg hm]
      omega
  obtain ⟨v, p, hd⟩ := digitLoop_total s fuel 0 _ hp.1 hp.2
  rw [hd]
  exact ⟨_, _, rfl⟩

end Rational
end MathPrograms

namespace MathPrograms
namespace Rational

/-- No parser method moves `pos` back, and more fuel does not change a result. -/
theorem parser_step (s : List Char) (fuel : Nat) :
    (∀ pos r pos', getSum fuel s pos = some (r, pos') →
      pos ≤ pos' ∧ getSum (fuel + 1) s pos = some (r, pos')) ∧
    (∀ res pos r pos', sumLoop fuel s res pos = some (r, pos') →
      pos ≤ pos' ∧ sumLoop (fuel + 1) s res pos = some (r, pos')) ∧
    (∀ pos r pos', getProduct fuel s pos = some (r, pos') →
      pos ≤ pos' ∧ getProduct (fuel + 1) s pos = some (r, pos')) ∧
    (∀ res pos r pos', productLoop fuel s res pos = some (r, pos') →
      pos ≤ pos' ∧ productLoop (fuel + 1) s res pos = some (r, pos')) ∧
    (∀ pos r pos', getSubExpr fuel s pos = some (r, pos') →
      pos ≤ pos' ∧ getSubExpr (fuel + 1) s pos = some (r, pos')) := by
  induction fuel with
  | zero =>
    refine ⟨?_, ?_, ?_, ?_, ?_⟩
    · intro pos r pos' h; rw [getSum_zero] at h; simp at h
    · intro res pos r pos' h; rw [sumLoop_zero] at h; simp at h
    · intro pos r pos' h; rw [getProduct_zero] at h; simp at h
    · intro res pos r pos' h; rw [productLoop_zero] at h; simp at h
    · intro pos r pos' h; rw [getSubExpr_zero] at h; simp at h
  | succ fuel ih =>
    obtain ⟨ihS, ihSL, ihP, ihPL, ihE⟩ := ih
    refine ⟨?_, ?_, ?_, ?_, ?_⟩
    · intro pos r pos' h
      rw [getSum_succ] at h
      rw [getSum_succ (fuel + 1)]
      cases hp : getProduct fuel s pos with
      | none => rw [hp] at h; simp at h
      | some x =>
        obtain ⟨r1, p1⟩ := x
        rw [hp] at h
        simp only at h
        obtain ⟨a1, a2⟩ := ihP _ _ _ hp
        obtain ⟨b1, b2⟩ := ihSL _ _ _ _ h
        rw [a2]
        exact ⟨by omega, b2⟩
    · intro res pos r pos' h
      rw [sumLoop_succ] at h
      rw [sumLoop_succ (fuel + 1)]
      split at h
      · next hc =>
        rw [if_pos hc]
        cases hp : getProduct fuel s (pos + 1) with
        | none => rw [hp] at h; simp at h
        | some x =>
          obtain ⟨r1, p1⟩ := x
          rw [hp] at h
          simp only at h
          obtain ⟨a1, a2⟩ := ihP _ _ _ hp
          obtain ⟨b1, b2⟩ := ihSL _ _ _ _ h
          rw [a2]
          exact ⟨by omega, b2⟩
      · next hc =>
        rw [if_neg hc]
        simp only [Option.some.injEq, Prod.mk.injEq] at h
        exact ⟨by omega, by rw [h.1, h.2]⟩
    · intro pos r pos' h
      rw [getProduct_succ] at h
      rw [getProduct_succ (fuel + 1)]
      cases hp : getSubExpr fuel s pos with
      | none => rw [hp] at h; simp at h
      | some x =>
        obtain ⟨r1, p1⟩ := x
        rw [hp] at h
        simp only at h
        obtain ⟨a1, a2⟩ := ihE _ _ _ hp
        obtain ⟨b1, b2⟩ := ihPL _ _ _ _ h
        rw [a2]
        exact ⟨by omega, b2⟩
    · intro res pos r pos' h
      rw [productLoop_succ] at h
      rw [productLoop_succ (fuel + 1)]
      split at h
      · next hc =>
        rw [if_pos hc]
        cases hp : getSubExpr fuel s (pos + 1) with
        | none => rw [hp] at h; simp at h
        | some x =>
          obtain ⟨r1, p1⟩ := x
          rw [hp] at h
          simp only at h
          obtain ⟨a1, a2⟩ := ihE _ _ _ hp
          obtain ⟨b1, b2⟩ := ihPL _ _ _ _ h
          rw [a2]
          exact ⟨by omega, b2⟩
      · next hc =>
        rw [if_neg hc]
        simp only [Option.some.injEq, Prod.mk.injEq] at h
        exact ⟨by omega, by rw [h.1, h.2]⟩
    · intro pos r pos' h
      rw [getSubExpr_succ] at h
      rw [getSubExpr_succ (fuel + 1)]
      cases hc : charAt s pos with
      | none => rw [hc] at h; simp at h
      | some c =>
        rw [hc] at h
        simp only at h ⊢
        by_cases hpar : c = '('
        · rw [if_pos hpar] at h ⊢
          cases hp : getSum fuel s (pos + 1) with
          | none => rw [hp] at h; simp at h
          | some x =>
            obtain ⟨r1, p1⟩ := x
            rw [hp] at h
            simp only [Option.some.injEq, Prod.mk.injEq] at h
            obtain ⟨a1, a2⟩ := ihS _ _ _ hp
            rw [a2]
            simp only [Option.some.injEq, Prod.mk.injEq]
            exact ⟨by omega, h⟩
        · rw [if_neg hpar] at h ⊢
          exact getNum_step s fuel pos r pos' h

/-- Enough fuel: every parser method returns, having read no character beyond the
terminator. -/
theorem parser_total (s : List Char) (fuel : Nat) :
    (∀ pos, pos ≤ s.length → 3 * (s.length + 1 - pos) + 3 ≤ fuel →
      ∃ r pos', getSum fuel s pos = some (r, pos')) ∧
    (∀ res pos, 3 * (s.length + 1 - pos) + 1 ≤ fuel →
      ∃ r pos', sumLoop fuel s res pos = some (r, pos')) ∧
    (∀ pos, pos ≤ s.length → 3 * (s.length + 1 - pos) + 2 ≤ fuel →
      ∃ r pos', getProduct fuel s pos = some (r, pos')) ∧
    (∀ res pos, 3 * (s.length + 1 - pos) + 1 ≤ fuel →
      ∃ r pos', productLoop fuel s res pos = some (r, pos')) ∧
    (∀ pos, pos ≤ s.length → 3 * (s.length + 1 - pos) + 1 ≤ fuel →
      ∃ r pos', getSubExpr fuel s pos = some (r, pos')) := by
  induction fuel with
  | zero =>
    refine ⟨?_, ?_, ?_, ?_, ?_⟩
    · intro pos _ h; omega
    · intro res pos h; omega
    · intro pos _ h; omega
    · intro res pos h; omega
    · intro pos _ h; omega
  | succ fuel ih =>
    obtain ⟨ihS, ihSL, ihP, ihPL, ihE⟩ := ih
    obtain ⟨_, stSL, stP, stPL, stE⟩ := parser_step s fuel
    refine ⟨?_, ?_, ?_, ?_, ?_⟩
    · intro pos h1 h2
      rw [getSum_succ]
      obtain ⟨r1, p1, hp⟩ := ihP pos h1 (by omega)
      have hle := (stP _ _ _ hp).1
      rw [hp]
      exact ihSL r1 p1 (by omega)
    · intro res pos h2
      rw [sumLoop_succ]
      split
      · next hc =>
        obtain ⟨r1, p1, hp⟩ := ihP (pos + 1) (by omega) (by omega)
        have hle := (stP _ _ _ hp).1
        rw [hp]
        exact ihSL _ p1 (by omega)
      · exact ⟨_, _, rfl⟩
    · intro pos h1 h2
      rw [getProduct_succ]
      obtain ⟨r1, p1, hp⟩ := ihE pos h1 (by omega)
      have hle := (stE _ _ _ hp).1
      rw [hp]
      exact ihPL r1 p1 (by omega)
    · intro res pos h2
      rw [productLoop_succ]
      split
      · next hc =>
        obtain ⟨r1, p1, hp⟩ := ihE (pos + 1) (by omega) (by omega)
        have hle := (stE _ _ _ hp).1
        rw [hp]
        exact ihPL _ p1 (by omega)
      · exact ⟨_, _, rfl⟩
    · intro pos h1 h2
      rw [getSubExpr_succ]
      obtain ⟨c, hc⟩ := charAt_of_le s pos h1
      rw [hc]
      simp only
      by_cases hpar : c = '('
      · rw [if_pos hpar]
        have hlt := charAt_lt s pos c hc (by rw [hpar]; decide)
        obtain ⟨r1, p1, hp⟩ := ihS (pos + 1) (by omega) (by omega)
        rw [hp]
        exact ⟨_, _, rfl⟩
      · rw [if_neg hpar]
        exact getNum_total s fuel pos h1 (by omega)

theorem getExpr_mono (s : List Char) (fuel : Nat) (pos : Nat) (r : Rational) (pos' : Nat)
    (h : getExpr fuel s pos = some (r, pos')) (fuel' : Nat) (hf : fuel ≤ fuel') :
    getExpr fuel' s pos = some (r, pos') := by
  induction fuel' with
  | zero =>
    have : fuel = 0 := by omega
    rw [← this]
    exact h
  | succ k ih =>
    by_cases hk : fuel = k + 1
    · rw [← hk]
      exact h
    · exact ((parser_step s k).1 _ _ _ (ih (by omega))).2

theorem ctorString_mono (fuel : Nat) (expr : List Char) (r : Rational)
    (h : ctorString fuel expr = some r) (fuel' : Nat) (hf : fuel ≤ fuel') :
    ctorString fuel' expr = some r := by
  unfold ctorString at h ⊢
  simp only at h ⊢
  cases hg : getExpr fuel (expr.filter (fun sym => sym ≠ ' ')) 0 with
  | none => rw [hg] at h; simp at h
  | some x =>
    obtain ⟨r1, p1⟩ := x
    rw [hg] at h
    rw [getExpr_mono _ fuel 0 r1 p1 hg fuel' hf]
    exact h

theorem ctorString_total (fuel : Nat) (expr : List Char)
    (hf : 3 * (expr.length + 1) + 3 ≤ fuel) : ∃ r, ctorString fuel expr = some r := by
  unfold ctorString
  simp only
  have hlen : (expr.filter (fun sym => sym ≠ ' ')).length ≤ expr.length :=
    List.length_filter_le _ _
  obtain ⟨r, p, h⟩ := (parser_total (expr.filter (fun sym => sym ≠ ' ')) fuel).1 0
    (Nat.zero_le _) (by omega)
  rw [show getExpr fuel (expr.filter (fun sym => sym ≠ ' ')) 0 = some (r, p) from h]
  exact ⟨_, rfl⟩

end Rational
end MathPrograms

namespace MathPrograms
namespace Rational

/-- C12: the constructor from text gives `Rational(14, 1)` on `2+3*4`, `Rational(1, 1)`
on `(1+1)/2` and `Rational(-2, 1)` on `-6/3`, whatever fuel from 30 on the parser is
given. -/
theorem C12_parse_examples (fuel : Nat) (hf : 30 ≤ fuel) :
    ctorString fuel "2+3*4".toList = some (ctor 14 1) ∧
    ctorString fuel "(1+1)/2".toList = some (ctor 1 1) ∧
    ctorString fuel "-6/3".toList = some (ctor (-2) 1) :=
  ⟨ctorString_mono 30 _ _ (by decide) fuel hf, ctorString_mono 30 _ _ (by decide) fuel hf,
    ctorString_mono 30 _ _ (by decide) fuel hf⟩

theorem C12_parse_examples_witness :
    ctorString 30 "2+3*4".toList = some (ctor 14 1) ∧
    ctorString 30 "(1+1)/2".toList = some (ctor 1 1) ∧
    ctorString 30 "-6/3".toList = some (ctor (-2) 1) :=
  C12_parse_examples 30 (by decide)

/-- C16 as stated fails: a tab is not removed, so `1<tab>+2` gives `1/1` while the same
text without whitespace, `1+2`, gives `3/1`. -/
theorem C16_counterexample :
    ctorString 30 ['1', Char.ofNat 9, '+', '2'] = some ⟨1, 1⟩ ∧
    (['1', Char.ofNat 9, '+', '2'].filter
        (fun sym => sym ≠ ' ' ∧ sym ≠ Char.ofNat 9 ∧ sym ≠ Char.ofNat 10))
      = ['1', '+', '2'] ∧
    ctorString 30 ['1', '+', '2'] = some ⟨3, 1⟩ := by
  decide

/-- C16 (amended): constructing a Fraction from a text gives the same result as
constructing it from the same text with every space character removed. -/
theorem C16_spaces_ignored (fuel : Nat) (expr : List Char) :
    ctorString fuel expr = ctorString fuel (expr.filter (fun sym => sym ≠ ' ')) := by
  unfold ctorString
  simp only [List.filter_filter, Bool.and_self]

theorem charAt_none_of_lt (s : List Char) (pos : Nat) (h : s.length < pos) :
    charAt s pos = none := by
  unfold charAt
  rw [if_neg (by omega), if_neg (by omega)]

end Rational
end MathPrograms

/-! ## Left-associative folding in the parser -/

namespace MathPrograms
namespace Rational

theorem getD_append_cons (pre : List Char) (c : Char) (t : List Char) :
    (pre ++ c :: t).getD pre.length (Char.ofNat 0) = c := by
  rw [List.getD_append_right _ _ _ _ (le_refl _), Nat.sub_self]
  rfl

theorem charAt_append_cons (pre : List Char) (c : Char) (t : List Char) :
    charAt (pre ++ c :: t) pre.length = some c := by
  unfold charAt
  rw [if_pos (by simp), getD_append_cons]

theorem charAt_length (s : List Char) : charAt s s.length = some (Char.ofNat 0) := by
  unfold charAt
  rw [if_neg (lt_irrefl _), if_pos rfl]

/-- The digit loop on a run of digits `ds` that ends the text or is followed by a
character that is no digit. -/
theorem digitLoop_run (ds : List Char) :
    ∀ (pre rest : List Char) (num : Int) (fuel : Nat), AllDigits ds →
      (∀ c t, rest = c :: t → ¬ ('0' ≤ c ∧ c ≤ '9')) → ds.length + 1 ≤ fuel →
      digitLoop fuel (pre ++ (ds ++ rest)) num pre.length
        = some (ds.foldl (fun num c => num * 10 + ((c.toNat : Int) - ('0'.toNat : Int))) num,
            pre.length + ds.length) := by
  induction ds with
  | nil =>
    intro pre rest num fuel _ hrest hf
    obtain ⟨f, rfl⟩ : ∃ f, fuel = f + 1 := ⟨fuel - 1, by omega⟩
    rw [digitLoop_succ]
    cases rest with
    | nil =>
      simp only [List.append_nil, charAt_length]
      rw [if_neg (by decide)]
      rfl
    | cons c t =>
      rw [List.nil_append, charAt_append_cons]
      simp only
      rw [if_neg (hrest c t rfl)]
      rfl
  | cons d ds ih =>
    intro pre rest num fuel hd hrest hf
    have hf' : ds.length + 2 ≤ fuel := by simpa using hf
    obtain ⟨f, rfl⟩ : ∃ f, fuel = f + 1 := ⟨fuel - 1, by omega⟩
    rw [digitLoop_succ, List.cons_append, charAt_append_cons]
    simp only
    rw [if_pos (hd d (List.mem_cons_self d ds))]
    have hs : pre ++ d :: (ds ++ rest) = (pre ++ [d]) ++ (ds ++ rest) := by simp
    have hp : pre.length + 1 = (pre ++ [d]).length := by simp
    rw [hs, hp, ih (pre ++ [d]) rest _ f (fun c hc => hd c (List.mem_cons_of_mem d hc)) hrest
      (by omega)]
    rw [List.length_append, List.length_singleton, List.length_cons, List.foldl_cons,
      Nat.add_assoc, Nat.add_comm 1]

theorem ctor_one_mul (v : Int) : ctor 1 1 * ctor v 1 = ctor v 1 := by
  have h1 : ctor 1 1 = ofRat 1 := rfl
  have h2 : ctor v 1 = ofRat (v : ℚ) := by
    rw [ctor_eq_ofRat v 1 one_ne_zero]
    simp
  rw [h1, h2, ofRat_mul, one_mul]

theorem ctor_int (v : Int) : ctor v 1 = ofRat (v : ℚ) := by
  rw [ctor_eq_ofRat v 1 one_ne_zero]
  simp

/-- Method `getNum` on a non-empty run of digits. -/
theorem getNum_digits (s pre ds rest : List Char) (fuel : Nat) (hs : s = pre ++ (ds ++ rest))
    (hd : AllDigits ds) (hne : ds ≠ [])
    (hrest : ∀ c t, rest = c :: t → ¬ ('0' ≤ c ∧ c ≤ '9')) (hf : ds.length + 1 ≤ fuel) :
    getNum fuel s pre.length = some (ctor (digitsValue ds) 1, pre.length + ds.length) := by
  obtain ⟨d, t, rfl⟩ := List.exists_cons_of_ne_nil hne
  have hdig := hd d (List.mem_cons_self d t)
  have hm : d ≠ '-' := by
    rintro rfl
    exact absurd hdig.1 (by decide)
  unfold getNum
  have hc : charAt s pre.length = some d := by
    rw [hs, List.cons_append, charAt_append_cons]
  rw [hc]
  simp only [if_neg hm]
  rw [hs, digitLoop_run (d :: t) pre rest 0 fuel hd hrest hf]
  simp only [ctor_one_mul]
  rfl

/-- Method `getSubExpr` on a non-empty run of digits. -/
theorem getSubExpr_digits (s pre ds rest : List Char) (fuel : Nat)
    (hs : s = pre ++ (ds ++ rest)) (hd : AllDigits ds) (hne : ds ≠ [])
    (hrest : ∀ c t, rest = c :: t → ¬ ('0' ≤ c ∧ c ≤ '9')) (hf : ds.length + 2 ≤ fuel) :
    getSubExpr fuel s pre.length = some (ctor (digitsValue ds) 1, pre.length + ds.length) := by
  obtain ⟨f, rfl⟩ : ∃ f, fuel = f + 1 := ⟨fuel - 1, by omega⟩
  obtain ⟨d, t, hdt⟩ := List.exists_cons_of_ne_nil hne
  have hdig := hd d (by rw [hdt]; exact List.mem_cons_self d t)
  have hm : d ≠ '(' := by
    rintro rfl
    exact absurd hdig.1 (by decide)
  have hc : charAt s pre.length = some d := by
    rw [hs, hdt, List.cons_append, charAt_append_cons]
  rw [getSubExpr_succ, hc]
  simp only [if_neg hm]
  exact getNum_digits s pre ds rest f hs hd hne hrest (by omega)

theorem productLoop_stop (fuel : Nat) (s : List Char) (res : Rational) (pos : Nat)
    (h : ¬ (pos < s.length ∧
      (s.getD pos (Char.ofNat 0) = '*' ∨ s.getD pos (Char.ofNat 0) = '/'))) :
    productLoop (fuel + 1) s res pos = some (res, pos) := by
  rw [productLoop_succ, if_neg h]

theorem sumLoop_stop (fuel : Nat) (s : List Char) (res : Rational) (pos : Nat)
    (h : ¬ (pos < s.length ∧
      (s.getD pos (Char.ofNat 0) = '+' ∨ s.getD pos (Char.ofNat 0) = '-'))) :
    sumLoop (fuel + 1) s res pos = some (res, pos) := by
  rw [sumLoop_succ, if_neg h]

/-- One iteration of the loop of `getProduct` on an operator followed by a run of
digits. -/
theorem productLoop_digits (s pre ds rest : List Char) (op : Char) (res : Rational)
    (fuel : Nat) (hs : s = pre ++ (op :: (ds ++ rest))) (hop : op = '*' ∨ op = '/')
    (hd : AllDigits ds) (hne : ds ≠ [])
    (hrest : ∀ c t, rest = c :: t → ¬ ('0' ≤ c ∧ c ≤ '9')) (hf : ds.length + 2 ≤ fuel) :
    productLoop (fuel + 1) s res pre.length
      = productLoop fuel s
          (if op = '*' then res * ctor (digitsValue ds) 1 else res / ctor (digitsValue ds) 1)
          (pre.length + 1 + ds.length) := by
  have hg : s.getD pre.length (Char.ofNat 0) = op := by rw [hs, getD_append_cons]
  have hl : pre.length < s.length := by rw [hs]; simp
  have hs' : s = (pre ++ [op]) ++ (ds ++ rest) := by rw [hs]; simp
  have hp : pre.length + 1 = (pre ++ [op]).length := by simp
  rw [productLoop_succ, hg, if_pos ⟨hl, hop⟩, hp,
    getSubExpr_digits s (pre ++ [op]) ds rest fuel hs' hd hne hrest hf]

/-- One iteration of the loop of `getSum` on an operator followed by a run of digits
that no `*` or `/` follows. -/
theorem sumLoop_digits (s pre ds rest : List Char) (op : Char) (res : Rational)
    (fuel : Nat) (hs : s = pre ++ (op :: (ds ++ rest))) (hop : op = '+' ∨ op = '-')
    (hd : AllDigits ds) (hne : ds ≠ [])
    (hrest : ∀ c t, rest = c :: t → ¬ ('0' ≤ c ∧ c ≤ '9') ∧ c ≠ '*' ∧ c ≠ '/')
    (hf : ds.length + 4 ≤ fuel) :
    sumLoop (fuel + 1) s res pre.length
      = sumLoop fuel s
          (if op = '+' then res + ctor (digitsValue ds) 1 else res - ctor (digitsValue ds) 1)
          (pre.length + 1 + ds.length) := by
  have hg : s.getD pre.length (Char.ofNat 0) = op := by rw [hs, getD_append_cons]
  have hl : pre.length < s.length := by rw [hs]; simp
  have hs' : s = (pre ++ [op]) ++ (ds ++ rest) := by rw [hs]; simp
  have hp : pre.length + 1 = (pre ++ [op]).length := by simp
  obtain ⟨f, rfl⟩ : ∃ f, fuel = f + 2 := ⟨fuel - 2, by omega⟩
  have hstop : ¬ ((pre ++ [op]).length + ds.length < s.length ∧
      (s.getD ((pre ++ [op]).length + ds.length) (Char.ofNat 0) = '*' ∨
        s.getD ((pre ++ [op]).length + ds.length) (Char.ofNat 0) = '/')) := by
    rintro ⟨h1, h2⟩
    cases rest with
    | nil =>
      rw [hs'] at h1
      simp at h1
      omega
    | cons c t =>
      have hs2 : s = ((pre ++ [op]) ++ ds) ++ c :: t := by rw [hs']; simp
      have hp2 : (pre ++ [op]).length + ds.length = ((pre ++ [op]) ++ ds).length := by
        simp only [List.length_append]
      rw [hp2, hs2, getD_append_cons] at h2
      obtain ⟨_, h3, h4⟩ := hrest c t rfl
      rcases h2 with h2 | h2
      · exact h3 h2
      · exact h4 h2
  rw [sumLoop_succ, hg, if_pos ⟨hl, hop⟩, hp, getProduct_succ,
    getSubExpr_digits s (pre ++ [op]) ds rest (f + 1) hs' hd hne
      (fun c t h => (hrest c t h).1) (by omega)]
  simp only
  rw [productLoop_stop f s _ _ hstop]

end Rational
end MathPrograms

namespace MathPrograms
namespace Rational

theorem digit_ne_space (c : Char) (h : '0' ≤ c ∧ c ≤ '9') : c ≠ ' ' := by
  rintro rfl
  exact absurd h.1 (by decide)

theorem filter_space_chain (d1 d2 d3 : List Char) (op : Char) (hop : op ≠ ' ')
    (h1 : AllDigits d1) (h2 : AllDigits d2) (h3 : AllDigits d3) :
    (d1 ++ (op :: (d2 ++ (op :: d3)))).filter (fun sym => sym ≠ ' ')
      = d1 ++ (op :: (d2 ++ (op :: d3))) := by
  rw [List.filter_eq_self]
  intro c hc
  simp only [List.mem_append, List.mem_cons] at hc
  simp only [ne_eq, decide_not, Bool.not_eq_true', decide_eq_false_iff_not]
  rcases hc with hc | hc | hc | hc | hc
  · exact digit_ne_space c (h1 c hc)
  · rw [hc]; exact hop
  · exact digit_ne_space c (h2 c hc)
  · rw [hc]; exact hop
  · exact digit_ne_space c (h3 c hc)

/-- The parser on `n1 - n2 - n3`: the loop of `getSum` folds from the left. -/
theorem getExpr_sub_chain (d1 d2 d3 : List Char) (h1 : AllDigits d1) (n1 : d1 ≠ [])
    (h2 : AllDigits d2) (n2 : d2 ≠ []) (h3 : AllDigits d3) (n3 : d3 ≠ []) (fuel : Nat)
    (hf : d1.length + d2.length + d3.length + 10 ≤ fuel) :
    getExpr fuel (d1 ++ ('-' :: (d2 ++ ('-' :: d3)))) 0
      = some (ctor (digitsValue d1) 1 - ctor (digitsValue d2) 1 - ctor (digitsValue d3) 1,
          (d1 ++ ('-' :: (d2 ++ ('-' :: d3)))).length) := by
  obtain ⟨f, rfl⟩ : ∃ f, fuel = f + 4 := ⟨fuel - 4, by omega⟩
  generalize hs : d1 ++ ('-' :: (d2 ++ ('-' :: d3))) = s
  have hsA : s = [] ++ (d1 ++ ('-' :: (d2 ++ ('-' :: d3)))) := by rw [← hs]; rfl
  have hsB : s = d1 ++ ('-' :: (d2 ++ ('-' :: d3))) := hs.symm
  have hsC : s = (d1 ++ ('-' :: d2)) ++ ('-' :: (d3 ++ [])) := by rw [← hs]; simp
  have hlen : s.length = d1.length + 1 + d2.length + 1 + d3.length := by
    rw [← hs]; simp; omega
  have nd : ¬ ('0' ≤ '-' ∧ '-' ≤ '9') := by decide
  have eA := getSubExpr_digits s [] d1 _ (f + 2) hsA h1 n1
    (fun c t h => by rw [(List.cons.inj h).1.symm]; exact nd) (by omega)
  simp only [List.length_nil, Nat.zero_add] at eA
  have eP : ¬ (d1.length < s.length ∧
      (s.getD d1.length (Char.ofNat 0) = '*' ∨ s.getD d1.length (Char.ofNat 0) = '/')) := by
    rw [hsB, getD_append_cons]
    rintro ⟨_, h | h⟩ <;> exact absurd h (by decide)
  have eB := sumLoop_digits s d1 d2 ('-' :: d3) '-' (ctor (digitsValue d1) 1) (f + 2) hsB
    (Or.inr rfl) h2 n2
    (fun c t h => by rw [(List.cons.inj h).1.symm]; exact ⟨nd, by decide, by decide⟩)
    (by omega)
  have eC := sumLoop_digits s (d1 ++ ('-' :: d2)) d3 [] '-'
    (ctor (digitsValue d1) 1 - ctor (digitsValue d2) 1) (f + 1) hsC
    (Or.inr rfl) h3 n3 (fun c t h => by simp at h) (by omega)
  have eD : ¬ (s.length < s.length ∧
      (s.getD s.length (Char.ofNat 0) = '+' ∨ s.getD s.length (Char.ofNat 0) = '-')) :=
    fun h => absurd h.1 (lt_irrefl _)
  have hpC : (d1 ++ ('-' :: d2)).length = d1.length + 1 + d2.length := by
    simp; omega
  have hpD : d1.length + 1 + d2.length + 1 + d3.length = s.length := hlen.symm
  rw [if_neg (by decide)] at eB eC
  rw [hpC] at eC
  rw [hpD] at eC
  unfold getExpr
  rw [getSum_succ, getProduct_succ, eA]
  simp only
  rw [productLoop_stop (f + 1) s _ _ eP]
  simp only
  rw [eB, eC, sumLoop_stop f s _ _ eD]

/-- The parser on `n1 / n2 / n3`: the loop of `getProduct` folds from the left. -/
theorem getExpr_div_chain (d1 d2 d3 : List Char) (h1 : AllDigits d1) (n1 : d1 ≠ [])
    (h2 : AllDigits d2) (n2 : d2 ≠ []) (h3 : AllDigits d3) (n3 : d3 ≠ []) (fuel : Nat)
    (hf : d1.length + d2.length + d3.length + 10 ≤ fuel) :
    getExpr fuel (d1 ++ ('/' :: (d2 ++ ('/' :: d3)))) 0
      = some (ctor (digitsValue d1) 1 / ctor (digitsValue d2) 1 / ctor (digitsValue d3) 1,
          (d1 ++ ('/' :: (d2 ++ ('/' :: d3)))).length) := by
  obtain ⟨f, rfl⟩ : ∃ f, fuel = f + 4 := ⟨fuel - 4, by omega⟩
  generalize hs : d1 ++ ('/' :: (d2 ++ ('/' :: d3))) = s
  have hsA : s = [] ++ (d1 ++ ('/' :: (d2 ++ ('/' :: d3)))) := by rw [← hs]; rfl
  have hsB : s = d1 ++ ('/' :: (d2 ++ ('/' :: d3))) := hs.symm
  have hsC : s = (d1 ++ ('/' :: d2)) ++ ('/' :: (d3 ++ [])) := by rw [← hs]; simp
  have hlen : s.length = d1.length + 1 + d2.length + 1 + d3.length := by
    rw [← hs]; simp; omega
  have nd : ¬ ('0' ≤ '/' ∧ '/' ≤ '9') := by decide
  have eA := getSubExpr_digits s [] d1 _ (f + 2) hsA h1 n1
    (fun c t h => by rw [(List.cons.inj h).1.symm]; exact nd) (by omega)
  simp only [List.length_nil, Nat.zero_add] at eA
  have eB := productLoop_digits s d1 d2 ('/' :: d3) '/' (ctor (digitsValue d1) 1) (f + 1) hsB
    (Or.inr rfl) h2 n2 (fun c t h => by rw [(List.cons.inj h).1.symm]; exact nd) (by omega)
  have eC := productLoop_digits s (d1 ++ ('/' :: d2)) d3 [] '/'
    (ctor (digitsValue d1) 1 / ctor (digitsValue d2) 1) f hsC
    (Or.inr rfl) h3 n3 (fun c t h => by simp at h) (by omega)
  have eD : ¬ (s.length < s.length ∧
      (s.getD s.length (Char.ofNat 0) = '*' ∨ s.getD s.length (Char.ofNat 0) = '/')) :=
    fun h => absurd h.1 (lt_irrefl _)
  have eE : ¬ (s.length < s.length ∧
      (s.getD s.length (Char.ofNat 0) = '+' ∨ s.getD s.length (Char.ofNat 0) = '-')) :=
    fun h => absurd h.1 (lt_irrefl _)
  have hpC : (d1 ++ ('/' :: d2)).length = d1.length + 1 + d2.length := by
    simp; omega
  have hpD : d1.length + 1 + d2.length + 1 + d3.length = s.length := hlen.symm
  rw [if_neg (by decide)] at eB eC
  rw [hpC] at eC
  rw [hpD] at eC
  obtain ⟨g, rfl⟩ : ∃ g, f = g + 1 := ⟨f - 1, by omega⟩
  unfold getExpr
  rw [getSum_succ, getProduct_succ, eA]
  simp only
  rw [eB, eC, productLoop_stop g s _ _ eD]
  simp only
  rw [sumLoop_stop (g + 3) s _ _ eE]

theorem ctorString_of_getExpr (fuel : Nat) (expr : List Char) (r : Rational) (pos : Nat)
    (hfil : expr.filter (fun sym => sym ≠ ' ') = expr)
    (h : getExpr fuel expr 0 = some (r, pos)) : ctorString fuel expr = some r := by
  unfold ctorString
  simp only
  rw [hfil, h]

end Rational
end MathPrograms


/-! ## `Rational` with `abs` as `int abs(int)` -/

namespace MathPrograms
namespace Rational

theorem wrap32_of_small (x : Int) (h1 : -2147483648 ≤ x) (h2 : x < 2147483648) :
    wrap32 x = x := by
  unfold wrap32
  omega

theorem absInt_of_small (x : Int) (h1 : -2147483648 < x) (h2 : x < 2147483648) :
    absInt x = some ((x.natAbs : Nat) : Int) := by
  unfold absInt
  rw [wrap32_of_small x (le_of_lt h1) h2, if_neg (by omega)]

/-- On fields below `2^31` in absolute value, not both zero, `reduce()` divides by a
nonzero greatest common divisor, the one of the exact absolute values. -/
theorem reduceChecked_of_small (r : Rational) (h : Small r) (hne : r.a ≠ 0 ∨ r.b ≠ 0) :
    reduceChecked r = some (reduce r) := by
  obtain ⟨h1, h2, h3, h4⟩ := h
  have hg : ((Nat.gcd r.a.natAbs r.b.natAbs : Nat) : Int) ≠ 0 := by
    intro h0
    have h0 : Nat.gcd r.a.natAbs r.b.natAbs = 0 := by exact_mod_cast h0
    rcases hne with h | h
    · exact h (Int.natAbs_eq_zero.1 (Nat.eq_zero_of_gcd_eq_zero_left h0))
    · exact h (Int.natAbs_eq_zero.1 (Nat.eq_zero_of_gcd_eq_zero_right h0))
  unfold reduceChecked reduce checkedDiv
  simp only [absInt_of_small _ h1 h2, absInt_of_small _ h3 h4, Int.natAbs_ofNat, if_neg hg]

/-- On arguments below `2^31` in absolute value the constructor returns what it returns
with `abs` exact. -/
theorem ctorChecked_of_small (n d : Int) (h1 : -2147483648 < n) (h2 : n < 2147483648)
    (h3 : -2147483648 < d) (h4 : d < 2147483648) : ctorChecked n d = some (ctor n d) := by
  unfold ctorChecked ctor
  by_cases hn : n ≠ 0
  · rw [if_pos hn, if_pos hn]
    by_cases hd : d < 0
    · rw [if_pos hd]
      exact reduceChecked_of_small _ ⟨by show (-2147483648 : Int) < -n; omega,
        by show -n < (2147483648 : Int); omega, by show (-2147483648 : Int) < -d; omega,
        by show -d < (2147483648 : Int); omega⟩ (Or.inl (by show -n ≠ 0; omega))
    · rw [if_neg hd]
      exact reduceChecked_of_small _ ⟨h1, h2, h3, h4⟩ (Or.inl hn)
  · rw [if_neg hn, if_neg hn]

/-- Division by the zero Fraction builds `Rational(x.numerator(), 0)`. -/
theorem divChecked_zero (x : Rational) :
    divChecked x 0 = ctorChecked x.numerator 0 := by
  have e : ctorChecked (0 : Rational).denominator (0 : Rational).numerator = some ⟨1, 0⟩ := by
    decide
  unfold divChecked
  rw [e]
  show ctorChecked (x.numerator * 1) (x.denominator * 0) = _
  rw [mul_one, mul_zero]

theorem ctorChecked_zero (d : Int) : ctorChecked 0 d = some ⟨0, 1⟩ := by
  unfold ctorChecked
  simp

theorem addChecked_zero_left (t : Rational) :
    addChecked 0 t = ctorChecked t.numerator t.denominator := by
  show ctorChecked (0 * t.b + t.a * 1) (1 * t.b) = ctorChecked t.a t.b
  rw [zero_mul, zero_add, mul_one, one_mul]

theorem mulChecked_zero_left (d : Rational) : mulChecked 0 d = some 0 := by
  show ctorChecked (0 * d.a) (1 * d.b) = some 0
  rw [zero_mul]
  exact ctorChecked_zero _

theorem mulChecked_zero_right (q : Rational) : mulChecked q 0 = some 0 := by
  show ctorChecked (q.a * 0) (q.b * 1) = some 0
  rw [mul_zero]
  exact ctorChecked_zero _

theorem subChecked_zero (c : Rational) :
    subChecked c 0 = ctorChecked c.numerator c.denominator := by
  have e : negChecked 0 = some 0 := by decide
  unfold subChecked
  rw [e]
  show ctorChecked (c.a * 1 + 0 * c.b) (c.b * 1) = ctorChecked c.a c.b
  rw [mul_one, zero_mul, add_zero, mul_one]

/-- A value that satisfies the invariant, with fields below `2^31` in absolute value,
is rebuilt by the constructor as it is. -/
theorem ctorChecked_self (c : Rational) (hv : Valid c) (hs : Small c) :
    ctorChecked c.numerator c.denominator = some c := by
  obtain ⟨h1, h2, h3, h4⟩ := hs
  rw [ctorChecked_of_small _ _ h1 h2 h3 h4]
  obtain ⟨q, rfl⟩ := (valid_iff_exists_ofRat c).1 hv
  show some (ctor q.num (q.den : Int)) = _
  rw [ctor_eq_ofRat _ _ (by exact_mod_cast q.den_nz)]
  congr 2
  exact_mod_cast Rat.num_div_den q

theorem eq_zero_of_valid (c : Rational) (hv : Valid c) (h : c.numerator = 0) : c = 0 := by
  obtain ⟨a, b⟩ := c
  obtain ⟨hb, hg⟩ := hv
  have ha : a = 0 := h
  subst ha
  have hb : 0 < b := hb
  have hg : Nat.gcd (0 : Int).natAbs b.natAbs = 1 := hg
  rw [Int.natAbs_zero, Nat.gcd_zero_left] at hg
  have hb1 : b = 1 := by omega
  subst hb1
  rfl

/-- Division of a Fraction with numerator below `2^31` in absolute value by the zero
Fraction returns what it returns with `abs` exact. -/
theorem divChecked_zero_of_small (x : Rational) (h1 : -2147483648 < x.numerator)
    (h2 : x.numerator < 2147483648) : divChecked x 0 = some (x / 0) := by
  rw [divChecked_zero, ctorChecked_of_small _ _ h1 h2 (by decide) (by decide)]
  show some (ctor x.numerator 0) = some (mul x (ctor (0 : Rational).denominator
    (0 : Rational).numerator))
  have e : ctor (0 : Rational).denominator (0 : Rational).numerator = ⟨1, 0⟩ := by decide
  rw [e]
  show _ = some (ctor (x.numerator * 1) (x.denominator * 0))
  rw [mul_one, mul_zero]

/-- The quotient by the zero Fraction is rebuilt by the constructor as it is. -/
theorem ctorChecked_div_zero (x : Rational) :
    ctorChecked (x / 0).numerator (x / 0).denominator = some (x / 0) := by
  rw [div_zero_eq]
  by_cases hx : x.numerator = 0
  · rw [if_pos hx]
    decide
  · rw [if_neg hx]
    rcases lt_or_gt_of_ne hx with h | h
    · rw [Int.sign_eq_neg_one_of_neg h]
      decide
    · rw [Int.sign_eq_one_of_pos h]
      decide


/-- C6 as stated fails: `Rational(3, 0)` is stored as `1/0`, whose denominator is not
positive, and `Rational(4294967297, 4294967297)` is stored as it is given, numerator
and denominator not coprime: both arguments convert to the `int` value `1`. -/
theorem C6_counterexample :
    ctorChecked 3 0 = some ⟨1, 0⟩ ∧
    ¬ (0 < (⟨1, 0⟩ : Rational).denominator) ∧
    ctorChecked 4294967297 4294967297 = some ⟨4294967297, 4294967297⟩ ∧
    Nat.gcd (⟨4294967297, 4294967297⟩ : Rational).numerator.natAbs
      (⟨4294967297, 4294967297⟩ : Rational).denominator.natAbs = 4294967297 := by
  decide

/-- C6 (amended): for integers `a`, `b` below `2^31` in absolute value with `b ≠ 0` or
`a = 0`, `Rational(a, b)` is constructed and has a positive denominator that is
coprime to the numerator. -/
theorem C6_ctor_invariant (a b : Int) (ha : -2147483648 < a ∧ a < 2147483648)
    (hb : -2147483648 < b ∧ b < 2147483648) (h : b ≠ 0 ∨ a = 0) :
    ∃ r : Rational, ctorChecked a b = some r ∧ 0 < r.denominator ∧
      Nat.gcd r.numerator.natAbs r.denominator.natAbs = 1 :=
  ⟨ctor a b, ctorChecked_of_small a b ha.1 ha.2 hb.1 hb.2, valid_ctor a b h⟩

theorem C6_ctor_invariant_witness :
    ∃ r : Rational, ctorChecked 6 (-4) = some r ∧ 0 < r.denominator ∧
      Nat.gcd r.numerator.natAbs r.denominator.natAbs = 1 :=
  C6_ctor_invariant 6 (-4) (by decide) (by decide) (Or.inl (by decide))

/-- C7 at `x = Rational(65536, 3)`, `y = Rational(65536, 5)`: both are constructed as
given and satisfy the invariant; `x * y` builds `Rational(4294967296, 15)`, whose
numerator converts to the `int` value `0`, so that `reduce()` divides both fields by
`15`: the product is returned as `286331153/1`, which is not the product `4294967296/15`
of the two rational numbers. -/
theorem C7_product_not_reduced :
    ctorChecked 65536 3 = some ⟨65536, 3⟩ ∧ ctorChecked 65536 5 = some ⟨65536, 5⟩ ∧
    Valid ⟨65536, 3⟩ ∧ Valid ⟨65536, 5⟩ ∧
    mulChecked ⟨65536, 3⟩ ⟨65536, 5⟩ = some ⟨286331153, 1⟩ ∧
    toRat ⟨286331153, 1⟩ ≠ toRat ⟨65536, 3⟩ * toRat ⟨65536, 5⟩ := by
  refine ⟨by decide, by decide, by decide, by decide, by decide, ?_⟩
  unfold toRat
  norm_num

/-- C13 as stated fails: `(1/2) / 0` reports no division by zero and returns the
value `1/0`. -/
theorem C13_counterexample :
    divChecked ⟨1, 2⟩ 0 = some ⟨1, 0⟩ ∧ divChecked ⟨1, 2⟩ 0 ≠ none := by
  decide

/-- C13 (amended): dividing a Fraction `x` whose numerator is below `2^31` in absolute
value by the zero Fraction (`operator/`, `operator/=`) reports no error and returns a
value: `0/1` when `x` is zero, and otherwise `1/0` or `-1/0`, the sign being that of
`x`. -/
theorem C13_div_by_zero_returns (x : Rational) (h1 : -2147483648 < x.numerator)
    (h2 : x.numerator < 2147483648) :
    divChecked x 0 = some (if x.numerator = 0 then ⟨0, 1⟩ else ⟨x.numerator.sign, 0⟩) := by
  rw [divChecked_zero_of_small x h1 h2, div_zero_eq]

theorem C13_div_by_zero_returns_witness :
    divChecked ⟨-3, 4⟩ 0 = some (if (⟨-3, 4⟩ : Rational).numerator = 0 then ⟨0, 1⟩
      else ⟨(⟨-3, 4⟩ : Rational).numerator.sign, 0⟩) :=
  C13_div_by_zero_returns ⟨-3, 4⟩ (by decide) (by decide)

/-- Beyond that bound the unqualified `abs` of `reduce()` decides: the numerator
`4294967296` converts to the `int` value `0`, and `reduce()` divides by
`std::gcd(0, 0) = 0`; the numerator `4294967298` converts to `2`, and the quotient is
`2147483649/0`. -/
theorem divChecked_zero_large :
    divChecked ⟨4294967296, 1⟩ 0 = none ∧
    divChecked ⟨4294967298, 1⟩ 0 = some ⟨2147483649, 0⟩ := by
  decide

/-- C17 at `x = Rational(65537, 65536)`, `y = Rational(1, 65536)`: both are constructed
as given and satisfy the invariant; `x - y` and `y - x` build a `Rational` from
`4294967296` (or its negative) and `4294967296`, which convert to the `int` value `0`,
so that `reduce()` divides by `std::gcd(0, 0) = 0`: neither `x < y` nor `x > y` has a
value. -/
theorem C17_comparison_undefined :
    ctorChecked 65537 65536 = some ⟨65537, 65536⟩ ∧
    ctorChecked 1 65536 = some ⟨1, 65536⟩ ∧
    Valid ⟨65537, 65536⟩ ∧ Valid ⟨1, 65536⟩ ∧
    absInt 4294967296 = some 0 ∧
    subChecked ⟨65537, 65536⟩ ⟨1, 65536⟩ = none ∧
    ltChecked ⟨65537, 65536⟩ ⟨1, 65536⟩ = none ∧
    gtChecked ⟨65537, 65536⟩ ⟨1, 65536⟩ = none := by
  decide

end Rational
end MathPrograms

/-! ## Division by the zero polynomial, every coefficient operation checked -/

namespace MathPrograms
namespace Polynomial

theorem foldChecked_append {σ : Type} (body : σ → Nat → Option σ) (l1 l2 : List Nat)
    (st : σ) :
    foldChecked body (l1 ++ l2) st = (foldChecked body l1 st).bind (foldChecked body l2) := by
  induction l1 generalizing st with
  | nil => rfl
  | cons i l1 ih =>
    show (body st i).bind (foldChecked body (l1 ++ l2))
      = ((body st i).bind (foldChecked body l1)).bind (foldChecked body l2)
    cases body st i with
    | none => rfl
    | some s => exact ih s

/-- The loop `for (i = 0; i < n; ++i) coef[i] = ...;` with a right-hand side that can
fail: when every right-hand side has a value `g i`, the loop ends with these values
stored. -/
theorem foldChecked_set {T : Type} [Zero T] [DecidableEq T] (cop : List T → Nat → Option T)
    (g : Nat → T) (n : Nat) (c : List T)
    (h : ∀ i, i < n → ∀ c' : List T, c'.length = c.length →
      (∀ k, i ≤ k → c'.getD k 0 = c.getD k 0) → cop c' i = some (g i)) :
    ∃ L, foldChecked (fun c i => (cop c i).map (fun v => c.set i v)) (List.range n) c = some L ∧
      L.length = c.length ∧
      ∀ k, L.getD k 0 = if k < n ∧ k < c.length then g k else c.getD k 0 := by
  induction n with
  | zero => exact ⟨c, rfl, rfl, fun k => by simp⟩
  | succ n ih =>
    obtain ⟨L, hL, hlen, hget⟩ := ih (fun i hi => h i (by omega))
    refine ⟨L.set n (g n), ?_, ?_, ?_⟩
    · rw [List.range_succ, foldChecked_append, hL]
      show ((cop L n).map (fun v => L.set n v)).bind _ = _
      rw [h n (by omega) L hlen (fun k hk => by rw [hget k, if_neg (by omega)])]
      rfl
    · rw [List.length_set, hlen]
    · intro k
      rw [getD_set, hlen, hget k]
      by_cases hkn : n = k
      · subst hkn
        by_cases hl : n < c.length
        · rw [if_pos ⟨rfl, hl⟩, if_pos ⟨by omega, hl⟩]
        · rw [if_neg (fun h => hl h.2), if_neg (fun h => by omega), if_neg (fun h => hl h.2)]
      · rw [if_neg (fun h => hkn h.1)]
        by_cases hk : k < n ∧ k < c.length
        · rw [if_pos hk, if_pos ⟨by omega, hk.2⟩]
        · rw [if_neg hk, if_neg (fun h => hk ⟨by omega, h.2⟩)]

/-- Two coefficient vectors in canonical form with the same coefficients are equal. -/
theorem canon_eq_of_getD {T : Type} [Zero T] [DecidableEq T] (a b : List T) (ha : Canon a)
    (hb : Canon b) (h : ∀ k, a.getD k 0 = b.getD k 0) : a = b := by
  have key : ∀ x y : List T, Canon x → Canon y → (∀ k, x.getD k 0 = y.getD k 0) →
      x.length ≤ y.length := by
    intro x y hx hy hxy
    by_contra hlt
    have hlt : y.length < x.length := by omega
    have hy0 : 0 < y.length := List.length_pos.2 hy.1
    have hx0 : x ≠ [0] := by
      intro e
      rw [e, List.length_singleton] at hlt
      omega
    apply canon_last_ne_zero x hx hx0
    rw [hxy, List.getD_eq_default _ _ (by omega)]
  have hlen : a.length = b.length :=
    le_antisymm (key a b ha hb h) (key b a hb ha (fun k => (h k).symm))
  apply List.ext_getElem hlen
  intro k h1 h2
  have e := h k
  rw [List.getD_eq_getElem _ _ h1, List.getD_eq_getElem _ _ h2] at e
  exact e


theorem getD_replicate_set (p k : Nat) (t : Rational) :
    ((List.replicate (p + 1) (0 : Rational)).set p t).getD k 0 = if k = p then t else 0 := by
  rw [getD_set, List.length_replicate]
  by_cases hk : p = k
  · subst hk
    rw [if_pos ⟨rfl, by omega⟩, if_pos rfl]
  · rw [if_neg (fun h => hk h.1), if_neg (fun h => hk h.symm)]
    by_cases hkp : k < p + 1
    · rw [List.getD_eq_getElem _ _ (by rw [List.length_replicate]; exact hkp),
        List.getElem_replicate]
    · rw [List.getD_eq_default _ _ (by rw [List.length_replicate]; omega)]

/-- The step `ans += delt` of `operator/`, with `delt` holding the one coefficient `t`
at index `p` and `ans` still zero up to that index. -/
theorem addAssignChecked_delt (ans : List Rational) (p : Nat) (t : Rational)
    (ht : Rational.ctorChecked t.numerator t.denominator = some t)
    (h0 : ∀ k, k ≤ p → ans.getD k 0 = 0) :
    ∃ ans', addAssignChecked rationalOps ans ((List.replicate (p + 1) 0).set p t) = some ans' ∧
      Canon ans' ∧ ∀ k, ans'.getD k 0 = if k = p then t else ans.getD k 0 := by
  have hlen : ((List.replicate (p + 1) (0 : Rational)).set p t).length = p + 1 := by
    rw [List.length_set, List.length_replicate]
  obtain ⟨L, hL, hLlen, hLget⟩ := foldChecked_set
    (fun c i => rationalOps.add (c.getD i 0)
      (((List.replicate (p + 1) (0 : Rational)).set p t).getD i 0))
    (fun i => if i = p then t else 0) (p + 1)
    (resize ans (max ans.length (p + 1)) 0)
    (by
      intro i hi c' _ hc'
      have e1 : c'.getD i 0 = 0 := by
        rw [hc' i (le_refl i), resize_getD, if_pos (by omega)]
        exact h0 i (by omega)
      show Rational.addChecked (c'.getD i 0)
        (((List.replicate (p + 1) (0 : Rational)).set p t).getD i 0)
          = some (if i = p then t else 0)
      rw [e1, getD_replicate_set, Rational.addChecked_zero_left]
      by_cases hip : i = p
      · rw [if_pos hip]
        exact ht
      · rw [if_neg hip]
        decide)
  refine ⟨deleteNulls L, ?_, canon_deleteNulls L, ?_⟩
  · unfold addAssignChecked
    simp only [hlen]
    rw [hL]
    rfl
  · intro k
    rw [deleteNulls_getD, hLget k, length_resize, resize_getD]
    by_cases hkp : k = p
    · subst hkp
      rw [if_pos ⟨by omega, by omega⟩, if_pos rfl, if_pos rfl]
    · simp only [if_neg hkp]
      by_cases hk : k < p + 1
      · rw [if_pos ⟨hk, by omega⟩]
        exact (h0 k (by omega)).symm
      · rw [if_neg (fun h => hk h.1)]
        by_cases hkl : k < max ans.length (p + 1)
        · rw [if_pos hkl]
        · rw [if_neg hkl, List.getD_eq_default _ _ (by omega)]

theorem foldChecked_zero (f : Nat → Option Rational) (js : List Nat)
    (h : ∀ j, j ∈ js → f j = some 0) :
    foldChecked (fun acc j => (f j).bind (fun prod => rationalOps.add acc prod)) js 0
      = some 0 := by
  induction js with
  | nil => rfl
  | cons j js ih =>
    show ((f j).bind (fun prod => rationalOps.add 0 prod)).bind _ = _
    rw [h j (List.mem_cons_self _ _)]
    exact ih (fun j hj => h j (List.mem_cons_of_mem _ hj))

/-- A product of polynomials in which every product of two coefficients is zero is
the zero polynomial. -/
theorem mulAssignChecked_zero (a b : List Rational)
    (h : ∀ i j, rationalOps.mul (get a j) (get b (i - j)) = some 0) :
    mulAssignChecked rationalOps a b = some [0] := by
  obtain ⟨L, hL, hLlen, hLget⟩ := foldChecked_set
    (fun (_ : List Rational) i => mulCoefChecked rationalOps a b i)
    (fun _ => 0) (resize a (a.length * b.length) 0).length
    (resize a (a.length * b.length) 0)
    (by
      intro i _ c' _ _
      exact foldChecked_zero (fun j => rationalOps.mul (get a j) (get b (i - j))) _
        (fun j _ => h i j))
  have e : deleteNulls L = [0] := by
    apply canon_eq_of_getD _ _ (canon_deleteNulls L) (by decide)
    intro k
    rw [deleteNulls_getD, hLget k]
    have h1 : ([0] : List Rational).getD k 0 = 0 := by
      cases k <;> rfl
    rw [h1]
    split
    · rfl
    · next hk =>
      rw [List.getD_eq_default _ _ (by omega)]
  unfold mulAssignChecked
  simp only []
  rw [hL]
  show some (deleteNulls L) = _
  rw [e]

theorem get_zero_poly (k : Nat) : get ([0] : List Rational) k = 0 := by
  rw [get_eq_getD]
  cases k <;> rfl

theorem mulAssignChecked_zero_left (d : List Rational) :
    mulAssignChecked rationalOps (ofScalar 0) d = some [0] :=
  mulAssignChecked_zero _ _ (fun i j => by
    show Rational.mulChecked (get [0] j) _ = _
    rw [get_zero_poly]
    exact Rational.mulChecked_zero_left _)

theorem mulAssignChecked_zero_right (q : List Rational) :
    mulAssignChecked rationalOps q (ofScalar 0) = some [0] :=
  mulAssignChecked_zero _ _ (fun i j => by
    show Rational.mulChecked _ (get [0] (i - j)) = _
    rw [get_zero_poly]
    exact Rational.mulChecked_zero_right _)

/-- Subtracting the zero polynomial rebuilds the constant coefficient and changes
nothing when the constructor returns it as it is. -/
theorem subAssignChecked_zero (A : List Rational) (hA : Canon A)
    (h0 : Rational.ctorChecked (A.getD 0 0).numerator (A.getD 0 0).denominator
      = some (A.getD 0 0)) :
    subAssignChecked rationalOps A [0] = some A := by
  obtain ⟨L, hL, hLlen, hLget⟩ := foldChecked_set
    (fun c i => rationalOps.sub (c.getD i 0) (([0] : List Rational).getD i 0))
    (fun _ => A.getD 0 0) 1
    (resize A (max A.length 1) 0)
    (by
      intro i hi c' _ hc'
      have hi0 : i = 0 := by omega
      subst hi0
      show Rational.subChecked (c'.getD 0 0) 0 = _
      rw [hc' 0 (le_refl 0), resize_getD, if_pos (by omega), Rational.subChecked_zero]
      exact h0)
  have e : deleteNulls L = A := by
    apply canon_eq_of_getD _ _ (canon_deleteNulls L) hA
    intro k
    rw [deleteNulls_getD, hLget k, length_resize, resize_getD]
    by_cases hk : k < 1 ∧ k < max A.length 1
    · rw [if_pos hk]
      have hk0 : k = 0 := by omega
      rw [hk0]
    · rw [if_neg hk]
      have hpos : 0 < A.length := List.length_pos.2 hA.1
      by_cases hkl : k < max A.length 1
      · rw [if_pos hkl]
      · rw [if_neg hkl, List.getD_eq_default _ _ (by omega)]
  unfold subAssignChecked
  simp only [List.length_singleton]
  rw [hL]
  show some (deleteNulls L) = _
  rw [e]


/-- The loop of `operator/` with the zero polynomial as divisor: `cur` stays the
dividend, and the quotient receives `cur[power - 1] / 0` at index `power`. -/
theorem divLoopChecked_zero (A : List Rational) (hA : Canon A)
    (h0 : Rational.ctorChecked (A.getD 0 0).numerator (A.getD 0 0).denominator
      = some (A.getD 0 0))
    (hs : ∀ i : Int, -2147483648 < (getInt A i).numerator ∧
      (getInt A i).numerator < 2147483648) :
    ∀ (p : Nat) (ans : List Rational), Canon ans → (∀ k, k < p → ans.getD k 0 = 0) →
      ∃ ans', divLoopChecked rationalOps (ofScalar 0) p (ans, A, List.replicate p 0)
          = some (ans', A, []) ∧ Canon ans' ∧
        ∀ k, ans'.getD k 0 = if k < p then getInt A ((k : Int) - 1) / 0 else ans.getD k 0 := by
  intro p
  induction p with
  | zero =>
    intro ans hc _
    exact ⟨ans, rfl, hc, fun k => by rw [if_neg (by omega)]⟩
  | succ p ih =>
    intro ans hc hz
    have e1 : Degree (ofScalar (0 : Rational)) = -1 := by decide
    have e2 : getInt (ofScalar (0 : Rational)) (-1) = 0 := by decide
    have e3 : (-1 : Int) + (p : Int) = ((p : Nat) : Int) - 1 := by ring
    have hd : rationalOps.div (getInt A (Degree (ofScalar (0 : Rational)) + (p : Int)))
        (getInt (ofScalar (0 : Rational)) (Degree (ofScalar (0 : Rational))))
        = some (getInt A ((p : Int) - 1) / 0) := by
      rw [e1, e2, e3]
      exact Rational.divChecked_zero_of_small _ (hs _).1 (hs _).2
    obtain ⟨ans1, ha1, hc1, hg1⟩ := addAssignChecked_delt ans p (getInt A ((p : Int) - 1) / 0)
      (Rational.ctorChecked_div_zero _) (fun k hk => hz k (by omega))
    obtain ⟨ans2, ha2, hc2, hg2⟩ := ih ans1 hc1 (fun k hk => by
      rw [hg1 k, if_neg (by omega)]
      exact hz k (by omega))
    refine ⟨ans2, ?_, hc2, ?_⟩
    · rw [divLoopChecked, hd]
      simp only [Option.some_bind, List.length_replicate, Nat.add_sub_cancel]
      rw [ha1]
      simp only [Option.some_bind]
      rw [mulAssignChecked_zero_left]
      simp only [Option.some_bind]
      rw [subAssignChecked_zero A hA h0]
      simp only [Option.some_bind]
      rw [set_last_replicate, List.dropLast_concat]
      exact ha2
    · intro k
      rw [hg2 k, hg1 k]
      by_cases hk : k < p
      · rw [if_pos hk, if_pos (by omega)]
      · rw [if_neg hk]
        by_cases hkp : k = p
        · subst hkp
          rw [if_pos rfl, if_pos (by omega)]
        · rw [if_neg hkp, if_neg (by omega)]

theorem canon_of_last_ne_zero {T : Type} [Zero T] (l : List T) (hne : l ≠ [])
    (h : l.getD (l.length - 1) 0 ≠ 0) : Canon l := by
  refine ⟨hne, fun hlast => absurd ?_ h⟩
  rw [List.getLast?_eq_getElem?] at hlast
  rw [List.getD_eq_getElem?_getD, hlast]
  rfl

theorem getD_map_zero (f : Rational → Rational) (hf : f 0 = 0) (A : List Rational) (j : Nat) :
    (A.map f).getD j 0 = f (A.getD j 0) := by
  by_cases hj : j < A.length
  · rw [List.getD_eq_getElem _ _ (by rw [List.length_map]; exact hj), List.getElem_map,
      List.getD_eq_getElem _ _ hj]
  · rw [List.getD_eq_default _ _ (by rw [List.length_map]; omega),
      List.getD_eq_default _ _ (by omega), hf]

theorem getD_cons_pos (x : Rational) (l : List Rational) (k : Nat) (hk : 0 < k) :
    (x :: l).getD k 0 = l.getD (k - 1) 0 := by
  cases k with
  | zero => omega
  | succ k => rfl

theorem resize_ofScalar_zero (n : Nat) :
    resize (ofScalar (0 : Rational)) (n + 1) 0 = List.replicate (n + 1) 0 := by
  unfold resize ofScalar
  rw [List.replicate_succ]
  simp

/-- The quotient by the zero polynomial, every coefficient operation checked. -/
theorem divideChecked_zero (A : Polynomial Rational) (hA : WF A)
    (hs : ∀ c ∈ A, Rational.Small c) :
    divideChecked rationalOps A (ofScalar 0) = some (if A = [0] then [0] else
      0 :: A.map (fun c => if c.numerator = 0 then (0 : Rational)
        else ⟨c.numerator.sign, 0⟩)) := by
  have hpos : 0 < A.length := List.length_pos.2 hA.1.1
  have hmem : ∀ k, k < A.length → A.getD k 0 ∈ A := by
    intro k hk
    rw [List.getD_eq_getElem _ _ hk]
    exact List.getElem_mem _
  have h0 : Rational.ctorChecked (A.getD 0 0).numerator (A.getD 0 0).denominator
      = some (A.getD 0 0) :=
    Rational.ctorChecked_self _ (hA.2 _ (hmem 0 hpos)) (hs _ (hmem 0 hpos))
  have hsm : ∀ i : Int, -2147483648 < (getInt A i).numerator ∧
      (getInt A i).numerator < 2147483648 := by
    intro i
    unfold getInt
    split
    · decide
    · rw [get_eq_getD]
      by_cases hk : i.toNat < A.length
      · exact ⟨(hs _ (hmem _ hk)).1, (hs _ (hmem _ hk)).2.1⟩
      · rw [List.getD_eq_default _ _ (by omega)]
        decide
  have e1 : Degree (ofScalar (0 : Rational)) = -1 := by decide
  have hge := Degree_ge A
  obtain ⟨n, hn⟩ : ∃ n : Nat, (Degree A - Degree (ofScalar (0 : Rational)) + 1).toNat = n + 1 :=
    ⟨(Degree A + 1).toNat, by rw [e1]; omega⟩
  have hnA : (n : Int) = Degree A + 1 := by rw [e1] at hn; omega
  obtain ⟨ans, ha, hc, hg⟩ := divLoopChecked_zero A hA.1 h0 hsm (n + 1) (ofScalar 0)
    (by decide) (fun k _ => by cases k <;> rfl)
  unfold divideChecked
  simp only []
  rw [if_neg (by rw [e1]; omega), hn, resize_ofScalar_zero, ha]
  show some (deleteNulls ans) = _
  rw [deleteNulls_of_canon ans hc]
  congr 1
  have hdiv0 : ∀ c : Rational, c / 0 = if c.numerator = 0 then (0 : Rational)
      else ⟨c.numerator.sign, 0⟩ := fun c => Rational.div_zero_eq c
  have hz0 : getInt A (((0 : Nat) : Int) - 1) / 0 = (0 : Rational) := by
    have : getInt A (((0 : Nat) : Int) - 1) = 0 := by
      unfold getInt
      rw [if_pos (by decide)]
    rw [this]
    decide
  by_cases hA0 : A = [0]
  · rw [if_pos hA0]
    have hn0 : n = 0 := by
      have : Degree A = -1 := by rw [hA0]; decide
      omega
    apply canon_eq_of_getD _ _ hc (by decide)
    intro k
    rw [hg k]
    cases k with
    | zero => rw [if_pos (by omega), hz0]; rfl
    | succ k => rw [if_neg (by omega)]; rfl
  · rw [if_neg hA0]
    have hdeg : Degree A = (A.length : Int) - 1 :=
      Degree_eq_length_sub_one A (fun h => hA0 ((Degree_eq_neg_one_iff A hA.1).1 h))
    have hnl : n = A.length := by omega
    have hlast := canon_last_ne_zero A hA.1 hA0
    have hlastv : Rational.Valid (A.getD (A.length - 1) 0) := hA.2 _ (hmem _ (by omega))
    have hnum : (A.getD (A.length - 1) 0).numerator ≠ 0 :=
      fun h => hlast (Rational.eq_zero_of_valid _ hlastv h)
    apply canon_eq_of_getD _ _ hc
    · apply canon_of_last_ne_zero _ (List.cons_ne_nil _ _)
      rw [List.length_cons, List.length_map, Nat.add_sub_cancel, getD_cons_pos _ _ _ hpos,
        getD_map_zero _ (by decide), if_neg hnum]
      intro h
      have := congrArg Rational.b h
      simp [Rational.zero_def] at this
    · intro k
      rw [hg k]
      cases k with
      | zero => rw [if_pos (by omega), hz0]; rfl
      | succ k =>
        rw [List.getD_cons_succ, getD_map_zero _ (by decide)]
        by_cases hk : k + 1 < n + 1
        · rw [if_pos hk]
          have e : (((k + 1 : Nat) : Int) - 1) = ((k : Nat) : Int) := by omega
          rw [e, getInt_natCast, hdiv0]
        · have e : A.getD k 0 = 0 := List.getD_eq_default _ _ (by omega)
          rw [if_neg hk, e]
          rfl

/-- C14 as stated fails: `1 / Z` and `1 % Z`, with `Z` the zero polynomial, report no
error and return polynomial values, the quotient having the coefficient `1/0`. -/
theorem C14_counterexample :
    divideChecked rationalOps ([1] : Polynomial Rational) (ofScalar 0) = some [0, ⟨1, 0⟩] ∧
    moduloChecked rationalOps ([1] : Polynomial Rational) (ofScalar 0) = some [1] := by
  decide

/-- C14 (amended): for every polynomial `A` in canonical form whose coefficients satisfy
the invariant of `Rational` with numerator and denominator below `2^31` in absolute
value, `A / Z` and `A % Z` with `Z` the zero polynomial report no error and return a
polynomial value.  `A % Z` is `A`.  `A / Z` is the zero polynomial when `A` is zero;
otherwise its constant coefficient is `0` and its coefficient of `x^(i+1)` is `0/1`,
`1/0` or `-1/0` as the coefficient of `x^i` in `A` is zero, positive or negative, so
that its leading coefficient has the denominator `0`. -/
theorem C14_div_by_zero_poly_returns (A : Polynomial Rational) (hA : WF A)
    (hs : ∀ c ∈ A, Rational.Small c) :
    divideChecked rationalOps A (ofScalar 0) = some (if A = [0] then [0] else
      0 :: A.map (fun c => if c.numerator = 0 then (0 : Rational)
        else ⟨c.numerator.sign, 0⟩)) ∧
    moduloChecked rationalOps A (ofScalar 0) = some A := by
  have hpos : 0 < A.length := List.length_pos.2 hA.1.1
  have hmem : A.getD 0 0 ∈ A := by
    rw [List.getD_eq_getElem _ _ hpos]
    exact List.getElem_mem _
  refine ⟨divideChecked_zero A hA hs, ?_⟩
  unfold moduloChecked
  rw [divideChecked_zero A hA hs]
  simp only [Option.some_bind]
  rw [mulAssignChecked_zero_right]
  simp only [Option.some_bind]
  show (subAssignChecked rationalOps A [0]).map deleteNulls = _
  rw [subAssignChecked_zero A hA.1 (Rational.ctorChecked_self _ (hA.2 _ hmem) (hs _ hmem))]
  show some (deleteNulls A) = _
  rw [deleteNulls_of_canon A hA.1]

theorem C14_div_by_zero_poly_returns_witness :
    divideChecked rationalOps ([⟨-1, 2⟩, 0, ⟨3, 1⟩] : Polynomial Rational) (ofScalar 0)
      = some [0, ⟨-1, 0⟩, 0, ⟨1, 0⟩] ∧
    moduloChecked rationalOps ([⟨-1, 2⟩, 0, ⟨3, 1⟩] : Polynomial Rational) (ofScalar 0)
      = some [⟨-1, 2⟩, 0, ⟨3, 1⟩] :=
  C14_div_by_zero_poly_returns [⟨-1, 2⟩, 0, ⟨3, 1⟩] (by decide) (by decide)

/-- Beyond that bound the unqualified `abs` of `Rational::reduce()` decides: for the
constant polynomial `4294967296` the division of the leading coefficient by the zero
Fraction divides by `std::gcd(0, 0) = 0`. -/
theorem divideChecked_zero_large :
    divideChecked rationalOps ([⟨4294967296, 1⟩] : Polynomial Rational) (ofScalar 0) = none ∧
    moduloChecked rationalOps ([⟨4294967296, 1⟩] : Polynomial Rational) (ofScalar 0) = none := by
  decide

end Polynomial
end MathPrograms
